import Mathlib

/-!
Verification development for the core subsystems of the `lightning` repository:
the compression-set bitmap (`src/core/interfaces/src/types/compression.rs`), the
handshake wire codec (`src/core/handshake/src/connection.rs`), the signed
transaction submission engine (`src/core/signer/src/lib.rs`), the
consensus-to-execution output producer
(`src/core/consensus/src/edge_node/consensus.rs`), and the verified blake3
block-stream codec (`src/lib/blake3-stream/src/lib.rs`).

Machine integers (`u8`, `u32`, `u64`, `usize`) are embedded as `Nat`, with
explicit bounds or `% 2 ^ w` reductions where the source semantics depend on
width.  Byte buffers are `List Nat`.  Fallible paths return `Except`/`Option`,
and a Rust panic is modelled as an explicit outcome constructor.
-/

namespace Lightning

/-- Error kinds of `std::io::ErrorKind` used by the embedded code:
`InvalidData`, `ConnectionReset`, and a catch-all `Other` (used for
`ErrorKind::Other` wrapping a codec error). -/
inductive IoErrorKind where
  | InvalidData
  | ConnectionReset
  | Other
  deriving DecidableEq

/-- Big-endian encoding of a `u64`, as in Rust `u64::to_be_bytes` (the value is
reduced mod `2 ^ 64` by taking each byte). -/
def u64_to_be_bytes (n : Nat) : List Nat :=
  [n / 2 ^ 56 % 256, n / 2 ^ 48 % 256, n / 2 ^ 40 % 256, n / 2 ^ 32 % 256,
   n / 2 ^ 24 % 256, n / 2 ^ 16 % 256, n / 2 ^ 8 % 256, n % 256]

/-- Rust `u64::from_be_bytes` on an 8-byte buffer. -/
def u64_from_be_bytes (l : List Nat) : Nat :=
  l.foldl (fun a b => a * 256 + b) 0

/-- Big-endian encoding of a `u32`, as in Rust `u32::to_be_bytes`. -/
def u32_to_be_bytes (n : Nat) : List Nat :=
  [n / 2 ^ 24 % 256, n / 2 ^ 16 % 256, n / 2 ^ 8 % 256, n % 256]

/-- Rust `u32::from_be_bytes` on a 4-byte buffer. -/
def u32_from_be_bytes (l : List Nat) : Nat :=
  l.foldl (fun a b => a * 256 + b) 0

theorem u64_roundtrip (n : Nat) (h : n < 2 ^ 64) :
    u64_from_be_bytes (u64_to_be_bytes n) = n := by
  simp only [u64_to_be_bytes, u64_from_be_bytes, List.foldl]
  norm_num
  omega

theorem u32_roundtrip (n : Nat) (h : n < 2 ^ 32) :
    u32_from_be_bytes (u32_to_be_bytes n) = n := by
  simp only [u32_to_be_bytes, u32_from_be_bytes, List.foldl]
  norm_num
  omega

theorem u64_to_be_bytes_length (n : Nat) : (u64_to_be_bytes n).length = 8 := rfl

theorem u32_to_be_bytes_length (n : Nat) : (u32_to_be_bytes n).length = 4 := rfl

/-! ## Compression sets, from `src/core/interfaces/src/types/compression.rs` -/

namespace Compression

/-- The `CompressionAlgorithm` enum. -/
inductive CompressionAlgorithm where
  | Uncompressed
  | Snappy
  | Gzip
  | Brotli
  | Lz4
  | Lzma
  deriving DecidableEq

/-- The `repr(u8)` discriminants of `CompressionAlgorithm`:
`Uncompressed = 0, Snappy = 1 <<< 0, Gzip = 1 <<< 1, Brotli = 1 <<< 2,
Lz4 = 1 <<< 3, Lzma = 1 <<< 4`. -/
def CompressionAlgorithm.toU8 : CompressionAlgorithm → Nat
  | .Uncompressed => 0
  | .Snappy => 0x01 <<< 0
  | .Gzip => 0x01 <<< 1
  | .Brotli => 0x01 <<< 2
  | .Lz4 => 0x01 <<< 3
  | .Lzma => 0x01 <<< 4

/-- A `CompressionAlgoSet` is a newtype over `u8`; we embed the wrapped value. -/
abbrev CompressionAlgoSet := Nat

/-- `CompressionAlgoSet::new`. -/
def algoSetNew : CompressionAlgoSet := 0

/-- `CompressionAlgoSet::insert`: `self.0 |= algo as u8`. -/
def algoSetInsert (s : CompressionAlgoSet) (a : CompressionAlgorithm) :
    CompressionAlgoSet :=
  s ||| a.toU8

/-- `CompressionAlgoSet::remove`: `self.0 &= !(algo as u8)` (`u8` bitwise not). -/
def algoSetRemove (s : CompressionAlgoSet) (a : CompressionAlgorithm) :
    CompressionAlgoSet :=
  s &&& (255 ^^^ a.toU8)

/-- `CompressionAlgoSet::contains`:
`(self.0 & (algo as u8)) != 0 || algo == Uncompressed`. -/
def algoSetContains (s : CompressionAlgoSet) (a : CompressionAlgorithm) : Bool :=
  (s &&& a.toU8) != 0 || a == .Uncompressed

/-- `From<u8> for CompressionAlgoSet`: `val & ((1 << 5) - 1)`. -/
def algoSetFromU8 (v : Nat) : CompressionAlgoSet :=
  v &&& ((0x01 <<< 5) - 1)

end Compression

/-! ## Handshake wire codec, from `src/core/handshake/src/connection.rs` -/

namespace Handshake

open Compression

/-- Network magic bytes, `*b"LIGHTNING"` (`consts::NETWORK`). -/
def NETWORK : List Nat := [0x4C, 0x49, 0x47, 0x48, 0x54, 0x4E, 0x49, 0x4E, 0x47]

/-- `consts::HANDSHAKE_REQ_TAG = 0x01 << 0`. -/
def HANDSHAKE_REQ_TAG : Nat := 0x01 <<< 0

/-- `consts::HANDSHAKE_RES_TAG = 0x01 << 1`. -/
def HANDSHAKE_RES_TAG : Nat := 0x01 <<< 1

/-- `consts::HANDSHAKE_RES_UNLOCK_TAG = 0x01 << 2`. -/
def HANDSHAKE_RES_UNLOCK_TAG : Nat := 0x01 <<< 2

/-- `consts::DELIVERY_ACK_TAG = 0x01 << 3`. -/
def DELIVERY_ACK_TAG : Nat := 0x01 <<< 3

/-- `consts::SERVICE_REQ_TAG = 0x01 << 4`. -/
def SERVICE_REQ_TAG : Nat := 0x01 <<< 4

/-- `consts::TERMINATION_FLAG = 0b10000000`. -/
def TERMINATION_FLAG : Nat := 0b10000000

/-- `consts::SNAPPY = 0x01`: Snappy compression bitmap value of the codec. -/
def SNAPPY : Nat := 0x01

/-- `consts::GZIP = 0x01 << 2`: GZip compression bitmap value of the codec. -/
def GZIP : Nat := 0x01 <<< 2

/-- `consts::LZ4 = 0x01 << 3`: LZ4 compression bitmap value of the codec. -/
def LZ4 : Nat := 0x01 <<< 3

/-- `is_termination_signal(byte) = byte & TERMINATION_FLAG == TERMINATION_FLAG`. -/
def is_termination_signal (byte : Nat) : Bool :=
  byte &&& TERMINATION_FLAG == TERMINATION_FLAG

/-- The `Reason` enum of termination reasons.  `repr(u8)` values:
`CodecViolation = 0x80`, then `0x81, 0x82, 0x83` by auto-increment, and
`Unknown = 0xFF`. -/
inductive Reason where
  | CodecViolation
  | OutOfLanes
  | ServiceNotFound
  | InsufficientBalance
  | Unknown
  deriving DecidableEq

/-- The `repr(u8)` discriminant of a `Reason` (used by `reason as u8`). -/
def Reason.toU8 : Reason → Nat
  | .CodecViolation => 0x80
  | .OutOfLanes => 0x81
  | .ServiceNotFound => 0x82
  | .InsufficientBalance => 0x83
  | .Unknown => 0xFF

/-- `Reason::from_u8`: `None` when the byte is not a termination signal, the
four listed reason codes, and `Some(Unknown)` for every other byte with bit 7
set. -/
def Reason.from_u8 (byte : Nat) : Option Reason :=
  if ¬ is_termination_signal byte then none
  else if byte = 0x80 then some .CodecViolation
  else if byte = 0x81 then some .OutOfLanes
  else if byte = 0x82 then some .ServiceNotFound
  else if byte = 0x83 then some .InsufficientBalance
  else some .Unknown

/-- The `FrameTag` enum. -/
inductive FrameTag where
  | HandshakeRequest
  | HandshakeResponse
  | HandshakeResponseUnlock
  | DeliveryAcknowledgement
  | ServiceRequest
  | TerminationSignal
  deriving DecidableEq

/-- `FrameTag::from_u8`. -/
def FrameTag.from_u8 (value : Nat) : Option FrameTag :=
  if is_termination_signal value then some .TerminationSignal
  else if value = HANDSHAKE_REQ_TAG then some .HandshakeRequest
  else if value = HANDSHAKE_RES_TAG then some .HandshakeResponse
  else if value = HANDSHAKE_RES_UNLOCK_TAG then some .HandshakeResponseUnlock
  else if value = DELIVERY_ACK_TAG then some .DeliveryAcknowledgement
  else if value = SERVICE_REQ_TAG then some .ServiceRequest
  else none

/-- `FrameTag::size_hint`. -/
def FrameTag.size_hint : FrameTag → Nat
  | .HandshakeRequest => 33
  | .HandshakeResponse => 106
  | .HandshakeResponseUnlock => 214
  | .DeliveryAcknowledgement => 97
  | .ServiceRequest => 5
  | .TerminationSignal => 1

/-- The `HandshakeFrame` enum.  Public keys and signatures are byte lists
(`ClientPublicKey` is 20 bytes, `NodePublicKey` and `BlsSignature` are 96).
`ClientSignature` in the source is a unit struct (the codec writes 96 zero
bytes for it and drops the parsed bytes), so `DeliveryAcknowledgement` carries
no data here. -/
inductive HandshakeFrame where
  | HandshakeRequest (version : Nat) (supported_compression_set : CompressionAlgoSet)
      (pubkey : List Nat) (resume_lane : Option Nat)
  | HandshakeResponse (lane : Nat) (pubkey : List Nat) (nonce : Nat)
  | HandshakeResponseUnlock (pubkey : List Nat) (nonce : Nat) (lane : Nat)
      (last_bytes : Nat) (last_service_id : Nat) (last_signature : List Nat)
  | DeliveryAcknowledgement
  | ServiceRequest (service_id : Nat)
  | TerminationSignal (reason : Reason)
  deriving DecidableEq

/-- `HandshakeConnection::write_frame`: the bytes written to the writer for a
frame.  Mirrors the per-variant buffers of the source (tag byte, then the
fixed-layout fields; `resume_lane: None` encodes as `0xFF`). -/
def write_frame : HandshakeFrame → List Nat
  | .TerminationSignal reason => [reason.toU8]
  | .HandshakeRequest version supported_compression_set pubkey lane =>
      [HANDSHAKE_REQ_TAG] ++ NETWORK ++
        [version, supported_compression_set, lane.getD 0xFF] ++ pubkey
  | .HandshakeResponse lane pubkey nonce =>
      [HANDSHAKE_RES_TAG, lane] ++ pubkey ++ u64_to_be_bytes nonce
  | .HandshakeResponseUnlock pubkey nonce lane last_bytes last_service_id
      last_signature =>
      [HANDSHAKE_RES_UNLOCK_TAG, lane] ++ pubkey ++ u64_to_be_bytes nonce ++
        u32_to_be_bytes last_service_id ++ u64_to_be_bytes last_bytes ++
        last_signature
  | .DeliveryAcknowledgement =>
      [DELIVERY_ACK_TAG] ++ List.replicate 96 0
  | .ServiceRequest service_id =>
      [SERVICE_REQ_TAG] ++ u32_to_be_bytes service_id

/-- `HandshakeConnection::parse_frame`.  On success returns the parsed frame
(or `none` when more bytes are needed) together with the buffer that remains
after `split_to`; on failure returns the error kind together with the bytes
written to the writer (the filter branch best-effort writes a
`CodecViolation` termination signal before returning `InvalidData`). -/
def parse_frame (filter : Option Nat) (buffer : List Nat) :
    Except (IoErrorKind × List Nat) (Option HandshakeFrame × List Nat) :=
  match buffer with
  | [] => .ok (none, buffer)
  | tag_byte :: _ =>
    if (match filter with
        | some bitmap => (tag_byte &&& bitmap) != tag_byte
        | none => false) then
      .error (.InvalidData, [Reason.toU8 .CodecViolation])
    else
      match FrameTag.from_u8 tag_byte with
      | none => .error (.InvalidData, [])
      | some tag =>
        if buffer.length < tag.size_hint then .ok (none, buffer)
        else
          let buf := buffer.take tag.size_hint
          let rest := buffer.drop tag.size_hint
          match tag with
          | .HandshakeRequest =>
            if (buf.drop 1).take 9 ≠ NETWORK then .error (.Other, [])
            else
              let version := buf.getD 10 0
              let supported_compression_set := algoSetFromU8 (buf.getD 11 0)
              let lane := if buf.getD 12 0 = 0xFF then none
                          else some (buf.getD 12 0)
              let pubkey := (buf.drop 13).take 20
              .ok (some (.HandshakeRequest version supported_compression_set
                           pubkey lane), rest)
          | .HandshakeResponse =>
            let lane := buf.getD 1 0
            let pubkey := (buf.drop 2).take 96
            let nonce := u64_from_be_bytes ((buf.drop 98).take 8)
            .ok (some (.HandshakeResponse lane pubkey nonce), rest)
          | .HandshakeResponseUnlock =>
            let lane := buf.getD 1 0
            let pubkey := (buf.drop 2).take 96
            let nonce := u64_from_be_bytes ((buf.drop 98).take 8)
            let last_service_id := u32_from_be_bytes ((buf.drop 106).take 4)
            let last_bytes := u64_from_be_bytes ((buf.drop 110).take 8)
            let last_signature := (buf.drop 118).take 96
            .ok (some (.HandshakeResponseUnlock pubkey nonce lane last_bytes
                         last_service_id last_signature), rest)
          | .DeliveryAcknowledgement =>
            .ok (some .DeliveryAcknowledgement, rest)
          | .ServiceRequest =>
            let service_id := u32_from_be_bytes ((buf.drop 1).take 4)
            .ok (some (.ServiceRequest service_id), rest)
          | .TerminationSignal =>
            match Reason.from_u8 (buf.getD 0 0) with
            | some reason => .ok (some (.TerminationSignal reason), rest)
            | none => .error (.Other, [])

/-- `HandshakeConnection::read_frame`: parse from the accumulated buffer and,
when a full frame is not yet available, append the reader's next chunk and
retry.  Each element of `chunks` is the (nonempty) result of one successful
`read_buf`; exhausting `chunks` models the reader returning 0 (connection
closed), which is `Ok(None)` on an empty buffer and `ConnectionReset`
otherwise. -/
def read_frame (filter : Option Nat) :
    List (List Nat) → List Nat →
    Except (IoErrorKind × List Nat) (Option HandshakeFrame × List Nat)
  | chunks, buffer =>
    match parse_frame filter buffer with
    | .error e => .error e
    | .ok (some frame, rest) => .ok (some frame, rest)
    | .ok (none, _) =>
      match chunks with
      | [] => if buffer.isEmpty then .ok (none, buffer)
              else .error (.ConnectionReset, [])
      | c :: cs => read_frame filter cs (buffer ++ c)

/-- Wire-representable field constraints of a frame, as imposed by the Rust
types: `u8`, `u32` and `u64` fields are bounded, public keys and signatures
have their fixed lengths, a `CompressionAlgoSet` occupies the reserved lower
five bits, and a resumed lane must differ from the `0xFF` sentinel reserved
for `resume_lane: None`. -/
def wireValid : HandshakeFrame → Prop
  | .HandshakeRequest version supported_compression_set pubkey resume_lane =>
      version < 256 ∧ supported_compression_set < 32 ∧ pubkey.length = 20 ∧
        ∀ l ∈ resume_lane, l < 255
  | .HandshakeResponse lane pubkey nonce =>
      lane < 256 ∧ pubkey.length = 96 ∧ nonce < 2 ^ 64
  | .HandshakeResponseUnlock pubkey nonce lane last_bytes last_service_id
      last_signature =>
      pubkey.length = 96 ∧ nonce < 2 ^ 64 ∧ lane < 256 ∧
        last_bytes < 2 ^ 64 ∧ last_service_id < 2 ^ 32 ∧
        last_signature.length = 96
  | .DeliveryAcknowledgement => True
  | .ServiceRequest service_id => service_id < 2 ^ 32
  | .TerminationSignal _ => True

theorem parse_write_request (version s : Nat) (pubkey : List Nat)
    (resume_lane : Option Nat) (hs : s < 32) (hpk : pubkey.length = 20)
    (hlane : ∀ l ∈ resume_lane, l < 255) :
    parse_frame none
        (write_frame (.HandshakeRequest version s pubkey resume_lane)) =
      .ok (some (.HandshakeRequest version s pubkey resume_lane), []) := by
  have hw : write_frame (.HandshakeRequest version s pubkey resume_lane) =
      1 :: (NETWORK ++ version :: s :: resume_lane.getD 0xFF :: pubkey) := by
    simp [write_frame, NETWORK, HANDSHAKE_REQ_TAG]
  have hlen : (1 :: (NETWORK ++ version :: s :: resume_lane.getD 0xFF ::
      pubkey)).length = 33 := by
    simp [NETWORK, hpk]
  have htag : FrameTag.from_u8 1 = some .HandshakeRequest := by decide
  have hnet : List.take 9 (List.drop 1 (1 :: (NETWORK ++ version :: s ::
      resume_lane.getD 0xFF :: pubkey))) = NETWORK := rfl
  have hv : (1 :: (NETWORK ++ version :: s :: resume_lane.getD 0xFF ::
      pubkey)).getD 10 0 = version := rfl
  have hcs : (1 :: (NETWORK ++ version :: s :: resume_lane.getD 0xFF ::
      pubkey)).getD 11 0 = s := rfl
  have hl : (1 :: (NETWORK ++ version :: s :: resume_lane.getD 0xFF ::
      pubkey)).getD 12 0 = resume_lane.getD 0xFF := rfl
  have hpkeq : List.take 20 (List.drop 13 (1 :: (NETWORK ++ version :: s ::
      resume_lane.getD 0xFF :: pubkey))) = pubkey := by
    show pubkey.take 20 = pubkey
    exact List.take_of_length_le (le_of_eq hpk)
  have hset : algoSetFromU8 s = s := by
    show s &&& 31 = s
    rw [show (31 : Nat) = 2 ^ 5 - 1 from rfl, Nat.and_pow_two_sub_one_eq_mod]
    omega
  rw [hw, parse_frame]
  simp only [htag, hlen, FrameTag.size_hint]
  rw [if_neg (by norm_num), if_neg (by norm_num)]
  rw [List.take_of_length_le (le_of_eq hlen),
    List.drop_eq_nil_of_le (le_of_eq hlen)]
  rw [hnet, if_neg (by simp), hv, hcs, hl, hpkeq, hset]
  cases resume_lane with
  | none => simp
  | some l =>
    have hne : l ≠ 0xFF := by have := hlane l (by simp); omega
    simp [Option.getD, hne]

theorem parse_write_response (lane : Nat) (pubkey : List Nat) (nonce : Nat)
    (hpk : pubkey.length = 96) (hn : nonce < 2 ^ 64) :
    parse_frame none (write_frame (.HandshakeResponse lane pubkey nonce)) =
      .ok (some (.HandshakeResponse lane pubkey nonce), []) := by
  have hw : write_frame (.HandshakeResponse lane pubkey nonce) =
      2 :: lane :: (pubkey ++ u64_to_be_bytes nonce) := by
    simp [write_frame, HANDSHAKE_RES_TAG]
  have hlen : (2 :: lane :: (pubkey ++ u64_to_be_bytes nonce)).length = 106 := by
    simp [hpk, u64_to_be_bytes]
  have htag : FrameTag.from_u8 2 = some .HandshakeResponse := by decide
  have hlane2 : (2 :: lane :: (pubkey ++ u64_to_be_bytes nonce)).getD 1 0 =
      lane := rfl
  have hpkeq : List.take 96 (List.drop 2 (2 :: lane :: (pubkey ++
      u64_to_be_bytes nonce))) = pubkey := by
    show (pubkey ++ u64_to_be_bytes nonce).take 96 = pubkey
    exact List.take_left' hpk
  have hnonce : List.take 8 (List.drop 98 (2 :: lane :: (pubkey ++
      u64_to_be_bytes nonce))) = u64_to_be_bytes nonce := by
    show ((pubkey ++ u64_to_be_bytes nonce).drop 96).take 8 = u64_to_be_bytes nonce
    rw [List.drop_left' hpk]
    exact List.take_of_length_le (by simp [u64_to_be_bytes])
  rw [hw, parse_frame]
  simp only [htag, hlen, FrameTag.size_hint]
  rw [if_neg (by norm_num), if_neg (by norm_num)]
  rw [List.take_of_length_le (le_of_eq hlen),
    List.drop_eq_nil_of_le (le_of_eq hlen)]
  rw [hlane2, hpkeq, hnonce, u64_roundtrip nonce hn]

theorem parse_write_response_unlock (pubkey : List Nat)
    (nonce lane last_bytes last_service_id : Nat) (last_signature : List Nat)
    (hpk : pubkey.length = 96) (hn : nonce < 2 ^ 64) (hb : last_bytes < 2 ^ 64)
    (hsid : last_service_id < 2 ^ 32) (hsig : last_signature.length = 96) :
    parse_frame none (write_frame (.HandshakeResponseUnlock pubkey nonce lane
        last_bytes last_service_id last_signature)) =
      .ok (some (.HandshakeResponseUnlock pubkey nonce lane last_bytes
        last_service_id last_signature), []) := by
  have hw : write_frame (.HandshakeResponseUnlock pubkey nonce lane last_bytes
      last_service_id last_signature) =
      4 :: lane :: (pubkey ++ (u64_to_be_bytes nonce ++
        (u32_to_be_bytes last_service_id ++ (u64_to_be_bytes last_bytes ++
          last_signature)))) := by
    simp [write_frame, HANDSHAKE_RES_UNLOCK_TAG]
  generalize hsigv : last_signature = sig at hsig hw ⊢
  generalize htail : pubkey ++ (u64_to_be_bytes nonce ++
    (u32_to_be_bytes last_service_id ++ (u64_to_be_bytes last_bytes ++
      sig))) = tail at hw
  have hlen : (4 :: lane :: tail).length = 214 := by
    simp [← htail, hpk, hsig, u64_to_be_bytes, u32_to_be_bytes]
  have htag : FrameTag.from_u8 4 = some .HandshakeResponseUnlock := by decide
  have hlane2 : (4 :: lane :: tail).getD 1 0 = lane := rfl
  have hpkeq : List.take 96 (List.drop 2 (4 :: lane :: tail)) = pubkey := by
    show tail.take 96 = pubkey
    rw [← htail]
    exact List.take_left' hpk
  have hd96 : tail.drop 96 = u64_to_be_bytes nonce ++
      (u32_to_be_bytes last_service_id ++ (u64_to_be_bytes last_bytes ++
        sig)) := by
    rw [← htail]
    exact List.drop_left' hpk
  have hnonce : List.take 8 (List.drop 98 (4 :: lane :: tail)) =
      u64_to_be_bytes nonce := by
    show (tail.drop 96).take 8 = u64_to_be_bytes nonce
    rw [hd96]
    exact List.take_left' (by simp [u64_to_be_bytes])
  have hd104 : tail.drop 104 = u32_to_be_bytes last_service_id ++
      (u64_to_be_bytes last_bytes ++ sig) := by
    have h8 : tail.drop 104 = (tail.drop 96).drop 8 := by
      rw [List.drop_drop]
    rw [h8, hd96, List.drop_left' (by simp [u64_to_be_bytes])]
  have hsid2 : List.take 4 (List.drop 106 (4 :: lane :: tail)) =
      u32_to_be_bytes last_service_id := by
    show (tail.drop 104).take 4 = u32_to_be_bytes last_service_id
    rw [hd104]
    exact List.take_left' (by simp [u32_to_be_bytes])
  have hd108 : tail.drop 108 = u64_to_be_bytes last_bytes ++ sig := by
    have h4 : tail.drop 108 = (tail.drop 104).drop 4 := by
      rw [List.drop_drop]
    rw [h4, hd104, List.drop_left' (by simp [u32_to_be_bytes])]
  have hlb : List.take 8 (List.drop 110 (4 :: lane :: tail)) =
      u64_to_be_bytes last_bytes := by
    show (tail.drop 108).take 8 = u64_to_be_bytes last_bytes
    rw [hd108]
    exact List.take_left' (by simp [u64_to_be_bytes])
  have hsigeq : List.take 96 (List.drop 118 (4 :: lane :: tail)) = sig := by
    show (tail.drop 116).take 96 = sig
    have h8 : tail.drop 116 = (tail.drop 108).drop 8 := by
      rw [List.drop_drop]
    rw [h8, hd108, List.drop_left' (by simp [u64_to_be_bytes])]
    exact List.take_of_length_le (le_of_eq hsig)
  rw [hw, parse_frame]
  simp only [htag, hlen, FrameTag.size_hint]
  rw [if_neg (by norm_num), if_neg (by norm_num)]
  rw [List.take_of_length_le (le_of_eq hlen),
    List.drop_eq_nil_of_le (le_of_eq hlen)]
  rw [hlane2, hpkeq, hnonce, hsid2, hlb, hsigeq, u64_roundtrip nonce hn,
    u64_roundtrip last_bytes hb, u32_roundtrip last_service_id hsid]

theorem parse_write_delivery_ack :
    parse_frame none (write_frame .DeliveryAcknowledgement) =
      .ok (some .DeliveryAcknowledgement, []) := rfl

theorem parse_write_service_request (service_id : Nat)
    (h : service_id < 2 ^ 32) :
    parse_frame none (write_frame (.ServiceRequest service_id)) =
      .ok (some (.ServiceRequest service_id), []) := by
  have hw : write_frame (.ServiceRequest service_id) =
      16 :: u32_to_be_bytes service_id := by
    simp [write_frame, SERVICE_REQ_TAG]
  have hlen : (16 :: u32_to_be_bytes service_id).length = 5 := by
    simp [u32_to_be_bytes]
  have htag : FrameTag.from_u8 16 = some .ServiceRequest := by decide
  have hsid : List.take 4 (List.drop 1 (16 :: u32_to_be_bytes service_id)) =
      u32_to_be_bytes service_id := by
    show (u32_to_be_bytes service_id).take 4 = u32_to_be_bytes service_id
    exact List.take_of_length_le (by simp [u32_to_be_bytes])
  rw [hw, parse_frame]
  simp only [htag, hlen, FrameTag.size_hint]
  rw [if_neg (by norm_num), if_neg (by norm_num)]
  rw [List.take_of_length_le (le_of_eq hlen),
    List.drop_eq_nil_of_le (le_of_eq hlen)]
  rw [hsid, u32_roundtrip service_id h]

theorem parse_write_termination (reason : Reason) :
    parse_frame none (write_frame (.TerminationSignal reason)) =
      .ok (some (.TerminationSignal reason), []) := by
  cases reason <;> rfl

theorem read_frame_single (filter : Option Nat) (w : List Nat)
    (f : HandshakeFrame) (hp : parse_frame filter w = .ok (some f, [])) :
    read_frame filter [w] [] = .ok (some f, []) := by
  rw [read_frame]
  have h0 : parse_frame filter ([] : List Nat) = .ok (none, []) := rfl
  rw [h0]
  rw [read_frame]
  simp only [List.nil_append]
  rw [hp]

/-- C6: for every handshake frame variant (with wire-representable fields),
writing the frame with `write_frame` and reading the produced bytes back with
`read_frame` and no filter yields the original frame with an empty residual
buffer; and the specific `HandshakeRequest` with version 0, empty compression
set, no resume lane and pubkey `[1; 20]` encodes to exactly 33 bytes:
tag `0x01`, the 9 network-magic bytes, `0x00`, `0x00`, `0xFF`, then twenty
`0x01` bytes. -/
theorem c6_frame_roundtrip (f : HandshakeFrame) (h : wireValid f) :
    read_frame none [write_frame f] [] = .ok (some f, []) ∧
    write_frame (.HandshakeRequest 0 0 (List.replicate 20 1) none) =
      [0x01] ++ NETWORK ++ [0x00, 0x00, 0xFF] ++ List.replicate 20 1 ∧
    (write_frame (.HandshakeRequest 0 0 (List.replicate 20 1) none)).length
      = 33 := by
  refine ⟨?_, by decide, by decide⟩
  apply read_frame_single
  cases f with
  | HandshakeRequest version s pubkey resume_lane =>
    exact parse_write_request version s pubkey resume_lane h.2.1 h.2.2.1 h.2.2.2
  | HandshakeResponse lane pubkey nonce =>
    exact parse_write_response lane pubkey nonce h.2.1 h.2.2
  | HandshakeResponseUnlock pubkey nonce lane lb sid sig =>
    exact parse_write_response_unlock pubkey nonce lane lb sid sig
      h.1 h.2.1 h.2.2.2.1 h.2.2.2.2.1 h.2.2.2.2.2
  | DeliveryAcknowledgement => exact parse_write_delivery_ack
  | ServiceRequest service_id => exact parse_write_service_request service_id h
  | TerminationSignal reason => exact parse_write_termination reason

theorem c6_frame_roundtrip_witness :
    read_frame none
        [write_frame (.HandshakeResponse 3 (List.replicate 96 2) 1000)] [] =
      .ok (some (.HandshakeResponse 3 (List.replicate 96 2) 1000), []) :=
  (c6_frame_roundtrip (.HandshakeResponse 3 (List.replicate 96 2) 1000)
    ⟨by norm_num, by simp, by norm_num⟩).1

/-- C7: for every valid tag byte `t` (one the codec recognises) and every
filter bitmap `f` with `t &&& f ≠ t`, a reader configured with filter `f`
that receives a frame starting with byte `t` writes exactly one byte to the
writer, namely the `CodecViolation` termination signal `0x80` (which has
bit 7 set), and returns an `InvalidData` error. -/
theorem c7_filter_rejection (t f : Nat) (rest : List Nat)
    (hvalid : (FrameTag.from_u8 t).isSome = true) (hf : t &&& f ≠ t) :
    read_frame (some f) [t :: rest] [] =
      .error (.InvalidData, [0x80]) ∧
    is_termination_signal 0x80 = true ∧ Reason.toU8 .CodecViolation = 0x80 := by
  refine ⟨?_, by decide, by decide⟩
  rw [read_frame]
  have h0 : parse_frame (some f) ([] : List Nat) = .ok (none, []) := rfl
  rw [h0, read_frame]
  simp only [List.nil_append]
  rw [parse_frame]
  have hcond : ((t &&& f) != t) = true := by
    simp [hf]
  simp [hcond, Reason.toU8]

theorem c7_filter_rejection_witness :
    read_frame (some 0x06) [[0x01]] [] = .error (.InvalidData, [0x80]) :=
  (c7_filter_rejection 0x01 0x06 [] (by decide) (by decide)).1

/-- C8 counterexample: the byte `0x84` has bit 7 set and is not one of the
valid reason codes `0x80, 0x81, 0x82, 0x83, 0xFF`, yet the reader decodes it
successfully as `TerminationSignal(Unknown)` instead of returning an error:
`Reason::from_u8` maps every termination byte outside `0x80..=0x83` to
`Unknown`, so the `InvalidReason` error branch of `parse_frame` is
unreachable. -/
theorem c8_bad_reason_accepted :
    read_frame none [[0x84]] [] =
      .ok (some (.TerminationSignal .Unknown), []) ∧
    is_termination_signal 0x84 = true ∧
    (∀ r : Reason, Reason.toU8 r ≠ 0x84) := by
  refine ⟨rfl, by decide, ?_⟩
  intro r
  cases r <;> decide

/-- C8 amended: a received frame whose first byte has bit 7 set but is not one
of the reason codes `0x80..=0x83` is not rejected; it decodes successfully as
a `TerminationSignal` with reason `Unknown` (the codec is lenient, rather
than treating a bad reason byte as a codec violation). -/
theorem c8_bad_reason_decodes_unknown (b : Nat)
    (hterm : is_termination_signal b = true)
    (hne : b ≠ 0x80 ∧ b ≠ 0x81 ∧ b ≠ 0x82 ∧ b ≠ 0x83) :
    read_frame none [[b]] [] = .ok (some (.TerminationSignal .Unknown), []) := by
  obtain ⟨h0, h1, h2, h3⟩ := hne
  rw [read_frame]
  have hp0 : parse_frame none ([] : List Nat) = .ok (none, []) := rfl
  rw [hp0, read_frame]
  simp only [List.nil_append]
  rw [parse_frame]
  have htag : FrameTag.from_u8 b = some .TerminationSignal := by
    rw [FrameTag.from_u8, if_pos hterm]
  rw [htag]
  have hr : Reason.from_u8 b = some .Unknown := by
    rw [Reason.from_u8]
    simp [hterm, h0, h1, h2, h3]
  simp [FrameTag.size_hint, hr]

theorem c8_bad_reason_decodes_unknown_witness :
    read_frame none [[0x85]] [] =
      .ok (some (.TerminationSignal .Unknown), []) :=
  c8_bad_reason_decodes_unknown 0x85 (by decide) (by decide)

end Handshake

/-- C9: the compression bit values.  The `CompressionAlgorithm` enum
discriminants are `Snappy = 0x01, Gzip = 0x02, Brotli = 0x04, Lz4 = 0x08,
Lzma = 0x10` and `contains(S, Uncompressed)` holds for every set value, as the
claim states; but the handshake codec constant `GZIP` is `0x01 << 2 = 0x04`,
not `0x02`, so the enum discriminant and the codec bitmap constant disagree
for Gzip (the codec constants agree with the enum only for Snappy and Lz4).
This records the divergence between the two layouts in the source. -/
theorem c9_compression_bit_values :
    Compression.CompressionAlgorithm.toU8 .Snappy = 0x01 ∧
    Compression.CompressionAlgorithm.toU8 .Gzip = 0x02 ∧
    Compression.CompressionAlgorithm.toU8 .Brotli = 0x04 ∧
    Compression.CompressionAlgorithm.toU8 .Lz4 = 0x08 ∧
    Compression.CompressionAlgorithm.toU8 .Lzma = 0x10 ∧
    Handshake.SNAPPY = Compression.CompressionAlgorithm.toU8 .Snappy ∧
    Handshake.LZ4 = Compression.CompressionAlgorithm.toU8 .Lz4 ∧
    Handshake.GZIP = 0x04 ∧
    Handshake.GZIP ≠ Compression.CompressionAlgorithm.toU8 .Gzip ∧
    ∀ S : Compression.CompressionAlgoSet,
      Compression.algoSetContains S .Uncompressed = true := by
  refine ⟨rfl, rfl, rfl, rfl, rfl, rfl, rfl, rfl, by decide, ?_⟩
  intro S
  simp [Compression.algoSetContains]

/-! ## Transaction submission engine, from `src/core/signer/src/lib.rs`

The `SignerInner::handle` loop owns `base_nonce`, `next_nonce`,
`base_timestamp` and the FIFO `pending_transactions`, and reacts to submit
tasks and new-block notifications.  We embed the loop state and the two loop
reactions as pure transitions.  Time is an abstract `Nat` (seconds); the
`SystemTime::now()` of each loop reaction is supplied as an argument, and
`elapsed` is truncated subtraction.  Signing, the query runner and the
mempool socket are external capabilities: a transaction is represented by its
`UpdatePayload` data (method and nonce), the query runner's
`get_node_info(..).nonce` value is the `application_nonce` argument of a
new-block reaction, and `validate_txn` returning `Revert` is the `reverts`
predicate argument.  The submissions a reaction performs through the mempool
socket are returned as a list. -/

namespace Signer

/-- The data of an `UpdateRequest` relevant to the engine: the
`UpdatePayload` method (opaque, a `Nat` id) and nonce. -/
structure UpdateRequest where
  method : Nat
  nonce : Nat
  deriving DecidableEq

/-- A `PendingTransaction`: the signed request plus the timestamp at which it
was last sent to the mempool. -/
structure PendingTransaction where
  update_request : UpdateRequest
  timestamp : Nat
  deriving DecidableEq

/-- The loop-owned state of `SignerInner::handle`. -/
structure SignerState where
  base_nonce : Nat
  next_nonce : Nat
  base_timestamp : Option Nat
  pending_transactions : List PendingTransaction

/-- The retry threshold `TIMEOUT` (300 s in production builds; the test build
uses 3 s, which only rescales the abstract clock). -/
def TIMEOUT : Nat := 300

/-- Initial state of the `handle` loop: `base_nonce` is the application nonce
at startup and `next_nonce = application_nonce + 1`, with no pending
transactions and no timer. -/
def initState (application_nonce : Nat) : SignerState :=
  { base_nonce := application_nonce
    next_nonce := application_nonce + 1
    base_timestamp := none
    pending_transactions := [] }

/-- The `task = rx.recv()` arm of the `handle` loop: respond to the caller
with `next_nonce`, send the signed request to the mempool, optimistically
increment `next_nonce`, enqueue the pending transaction with the current
timestamp, and start `base_timestamp` if unset.  Returns the nonce given to
the caller, the mempool submissions, and the new state. -/
def submit (method now : Nat) (s : SignerState) :
    Nat × List UpdateRequest × SignerState :=
  let assigned := s.next_nonce
  let update_request : UpdateRequest := { method := method, nonce := assigned }
  (assigned, [update_request],
    { base_nonce := s.base_nonce
      next_nonce := s.next_nonce + 1
      base_timestamp := match s.base_timestamp with
        | none => some now
        | some t => some t
      pending_transactions :=
        s.pending_transactions ++ [{ update_request := update_request,
                                     timestamp := now }] })

/-- The resend loop inside `sync_with_application`: walk
`pending_transactions` in order; a transaction the validator reverts is
skipped (and kept unchanged), otherwise `next_nonce` is incremented, the
transaction is resubmitted, its timestamp is refreshed to `now`, and
`base_timestamp` is set to that timestamp if still unset.  Returns the
updated queue, `next_nonce`, `base_timestamp` and the resubmissions in
order. -/
def resendLoop (reverts : UpdateRequest → Bool) (now : Nat) :
    List PendingTransaction → Nat → Option Nat →
    List PendingTransaction × Nat × Option Nat × List UpdateRequest
  | [], next_nonce, base_timestamp => ([], next_nonce, base_timestamp, [])
  | tx :: restTxs, next_nonce, base_timestamp =>
    if reverts tx.update_request then
      let (queue, n, bt, subs) := resendLoop reverts now restTxs next_nonce
        base_timestamp
      (tx :: queue, n, bt, subs)
    else
      let tx2 : PendingTransaction := { tx with timestamp := now }
      let bt1 : Option Nat := match base_timestamp with
        | none => some tx2.timestamp
        | some t => some t
      let (queue, n, bt, subs) := resendLoop reverts now restTxs
        (next_nonce + 1) bt1
      (tx2 :: queue, n, bt, tx.update_request :: subs)

/-- The `while front nonce <= application_nonce: pop_front` loop of the
`application_nonce > base_nonce` branch. -/
def popFinalized (application_nonce : Nat) :
    List PendingTransaction → List PendingTransaction
  | [] => []
  | tx :: restTxs =>
    if tx.update_request.nonce ≤ application_nonce then
      popFinalized application_nonce restTxs
    else tx :: restTxs

/-- `SignerInner::sync_with_application`: given the application nonce reported
for this node (0 when the node record is missing), the validator predicate
(`validate_txn` returning `Revert`), and the current time, produce the new
state together with the mempool resubmissions. -/
def sync_with_application (application_nonce : Nat)
    (reverts : UpdateRequest → Bool) (now : Nat) (s : SignerState) :
    SignerState × List UpdateRequest :=
  if s.base_nonce = application_nonce ∧ s.base_nonce + 1 < s.next_nonce then
    match s.base_timestamp with
    | some base_timestamp_ =>
      if TIMEOUT ≤ now - base_timestamp_ then
        let (queue, n, bt, subs) := resendLoop reverts now
          s.pending_transactions (s.base_nonce + 1) none
        ({ s with pending_transactions := queue, next_nonce := n,
                  base_timestamp := bt }, subs)
      else (s, [])
    | none => (s, [])
  else if s.base_nonce < application_nonce then
    let queue := popFinalized application_nonce s.pending_transactions
    ({ base_nonce := application_nonce
       next_nonce := s.next_nonce
       base_timestamp := match queue with
         | [] => none
         | tx :: _ => some tx.timestamp
       pending_transactions := queue }, [])
  else (s, [])

/-- One operation arriving at the `handle` loop: a submit task or a new-block
notification (carrying the application nonce the query runner reports and the
validator's verdict on each request at that time). -/
inductive Op where
  | submit (method now : Nat)
  | newBlock (application_nonce : Nat) (reverts : UpdateRequest → Bool)
      (now : Nat)

/-- One loop iteration: the state transition together with the nonce handed
to a submit caller (if any) and the mempool submissions performed. -/
def step (s : SignerState) : Op → SignerState × List Nat × List UpdateRequest
  | .submit method now =>
    let (assigned, subs, s2) := submit method now s
    (s2, [assigned], subs)
  | .newBlock application_nonce reverts now =>
    let (s2, subs) := sync_with_application application_nonce reverts now s
    (s2, [], subs)

/-- Run a sequence of operations, accumulating the assigned nonces and the
mempool submissions in order. -/
def run (s : SignerState) : List Op → SignerState × List Nat × List UpdateRequest
  | [] => (s, [], [])
  | op :: ops =>
    let (s1, a1, m1) := step s op
    let (s2, a2, m2) := run s1 ops
    (s2, a1 ++ a2, m1 ++ m2)

/-- The nonces returned to submit callers along a run from `initState`. -/
def assignedNonces (application_nonce : Nat) (ops : List Op) : List Nat :=
  (run (initState application_nonce) ops).2.1

/-- Whether an operation makes the current state take the timeout-retry path
of `sync_with_application` (the branch that resets `next_nonce` and resubmits
pending transactions). -/
def takesRetryPath (s : SignerState) : Op → Bool
  | .submit _ _ => false
  | .newBlock application_nonce _ now =>
    decide (s.base_nonce = application_nonce ∧
      s.base_nonce + 1 < s.next_nonce) &&
    (match s.base_timestamp with
     | some base_timestamp_ => decide (TIMEOUT ≤ now - base_timestamp_)
     | none => false)

/-- Whether a run never takes the timeout-retry path. -/
def retryFree (s : SignerState) : List Op → Bool
  | [] => true
  | op :: ops => !takesRetryPath s op && retryFree (step s op).1 ops

theorem sync_next_of_not_retry (application_nonce : Nat)
    (reverts : UpdateRequest → Bool) (now : Nat) (s : SignerState)
    (h : takesRetryPath s (.newBlock application_nonce reverts now) = false) :
    (sync_with_application application_nonce reverts now s).1.next_nonce =
      s.next_nonce := by
  unfold takesRetryPath at h
  unfold sync_with_application
  by_cases h1 : s.base_nonce = application_nonce ∧
      s.base_nonce + 1 < s.next_nonce
  · rw [if_pos h1]
    cases hbt : s.base_timestamp with
    | none => rfl
    | some bt =>
      have h2 : ¬ TIMEOUT ≤ now - bt := by
        simp [h1, hbt] at h
        omega
      simp [h2]
  · rw [if_neg h1]
    by_cases h2 : s.base_nonce < application_nonce
    · rw [if_pos h2]
    · rw [if_neg h2]

theorem assigned_aux (ops : List Op) : ∀ (s : SignerState),
    retryFree s ops = true →
    (∀ a ∈ (run s ops).2.1, s.next_nonce ≤ a) ∧
      (run s ops).2.1.Pairwise (· < ·) := by
  induction ops with
  | nil => intro s _; simp [run]
  | cons op ops ih =>
    intro s hfree
    rw [retryFree, Bool.and_eq_true, Bool.not_eq_true'] at hfree
    obtain ⟨hnr, hfree2⟩ := hfree
    cases op with
    | submit method now =>
      have hrun : (run s (.submit method now :: ops)).2.1 =
          s.next_nonce :: (run (step s (.submit method now)).1 ops).2.1 := by
        simp [run, step, submit]
      have hnext : (step s (.submit method now)).1.next_nonce =
          s.next_nonce + 1 := by
        simp [step, submit]
      obtain ⟨ihmem, ihpw⟩ := ih (step s (.submit method now)).1 hfree2
      rw [hnext] at ihmem
      constructor
      · intro a ha
        rw [hrun] at ha
        rcases List.mem_cons.1 ha with h | h
        · omega
        · have := ihmem a h; omega
      · rw [hrun]
        refine List.Pairwise.cons ?_ ihpw
        intro a ha
        have := ihmem a ha; omega
    | newBlock application_nonce reverts now =>
      have hrun : (run s (.newBlock application_nonce reverts now :: ops)).2.1 =
          (run (step s (.newBlock application_nonce reverts now)).1 ops).2.1 := by
        simp [run, step]
      have hnext : (step s (.newBlock application_nonce reverts now)).1.next_nonce
          = s.next_nonce := by
        simpa [step] using
          sync_next_of_not_retry application_nonce reverts now s hnr
      obtain ⟨ihmem, ihpw⟩ := ih (step s (.newBlock application_nonce reverts now)).1 hfree2
      rw [hnext] at ihmem
      exact ⟨by rw [hrun]; exact ihmem, by rw [hrun]; exact ihpw⟩

/-- C3 counterexample: nonce assignment is not strictly monotonic over every
operation sequence.  With `base_nonce = 5`, a first submit returns 6; a
new-block notification reporting application nonce 5 after `TIMEOUT` takes the
retry path, and because the validator rejects the pending transaction, the
resend loop skips it and leaves `next_nonce` reset to 6; the next submit then
returns 6 again — equal to, not strictly greater than, the previously
assigned nonce. -/
theorem c3_strict_monotonicity_fails :
    assignedNonces 5
        [.submit 0 0, .newBlock 5 (fun _ => true) 300, .submit 1 300] =
      [6, 6] ∧
    ¬ (assignedNonces 5
        [.submit 0 0, .newBlock 5 (fun _ => true) 300, .submit 1 300]).Pairwise
          (· < ·) := by
  have h : assignedNonces 5
      [.submit 0 0, .newBlock 5 (fun _ => true) 300, .submit 1 300] =
        [6, 6] := rfl
  refine ⟨h, ?_⟩
  rw [h]
  decide

/-- C3 (amended): in every run from `initState` in which no new-block
notification takes the timeout-retry path of `sync_with_application`, the
nonces synchronously returned to submit callers are pairwise strictly
increasing in order of assignment; in particular with `base_nonce = 5`, three
sequential submits return `6, 7, 8` and enqueue three pending transactions
with those nonces.  (The timeout-retry path deliberately resets `next_nonce`
and can re-assign a nonce when the validator rejects a pending transaction,
as the counterexample shows.) -/
theorem c3_nonces_monotonic (application_nonce : Nat) (ops : List Op)
    (h : retryFree (initState application_nonce) ops = true) :
    (assignedNonces application_nonce ops).Pairwise (· < ·) ∧
    assignedNonces 5 [.submit 0 0, .submit 1 0, .submit 2 0] = [6, 7, 8] ∧
    (List.map (fun tx => tx.update_request.nonce)
        (run (initState 5)
          [.submit 0 0, .submit 1 0, .submit 2 0]).1.pending_transactions =
      [6, 7, 8]) :=
  ⟨(assigned_aux ops (initState application_nonce) h).2, rfl, rfl⟩

theorem c3_nonces_monotonic_witness :
    retryFree (initState 5) [.submit 0 0, .submit 1 0, .submit 2 0] = true ∧
    (assignedNonces 5 [.submit 0 0, .submit 1 0, .submit 2 0]).Pairwise
      (· < ·) :=
  ⟨rfl, (c3_nonces_monotonic 5 [.submit 0 0, .submit 1 0, .submit 2 0] rfl).1⟩

theorem resendLoop_spec (reverts : UpdateRequest → Bool) (now : Nat) :
    ∀ (txs : List PendingTransaction) (next_nonce : Nat) (bt0 : Option Nat),
    (resendLoop reverts now txs next_nonce bt0).2.2.2 =
      (txs.filter (fun tx => !reverts tx.update_request)).map
        (fun tx => tx.update_request) ∧
    (resendLoop reverts now txs next_nonce bt0).2.1 =
      next_nonce +
        (txs.filter (fun tx => !reverts tx.update_request)).length ∧
    (resendLoop reverts now txs next_nonce bt0).1.map
        (fun tx => tx.update_request) =
      txs.map (fun tx => tx.update_request) ∧
    (resendLoop reverts now txs next_nonce bt0).2.2.1 =
      (match bt0 with
       | some t => some t
       | none =>
         if (txs.filter (fun tx => !reverts tx.update_request)).isEmpty then
           none
         else some now) := by
  intro txs
  induction txs with
  | nil => intro next_nonce bt0; cases bt0 <;> simp [resendLoop]
  | cons tx rest ih =>
    intro next_nonce bt0
    by_cases hr : reverts tx.update_request
    · have h1 := ih next_nonce bt0
      simp only [resendLoop, if_pos hr]
      simp only [List.filter_cons, hr]
      simp only [Bool.not_true, Bool.false_eq_true, if_false]
      refine ⟨h1.1, h1.2.1, ?_, h1.2.2.2⟩
      simp [h1.2.2.1]
    · have h1 := ih (next_nonce + 1)
        (match bt0 with | none => some now | some t => some t)
      simp only [resendLoop, if_neg hr]
      simp only [List.filter_cons, hr]
      simp only [Bool.not_false, if_true]
      refine ⟨?_, ?_, ?_, ?_⟩
      · simp [h1.1]
      · simp [h1.2.1]; omega
      · simp [h1.2.2.1]
      · rw [h1.2.2.2]
        cases bt0 <;> simp

/-- C4: when a new-block notification reports an application nonce equal to
`base_nonce` while `next_nonce > base_nonce + 1` and at least `TIMEOUT` has
elapsed since `base_timestamp`, `sync_with_application` resubmits to the
mempool exactly once, in order, each pending transaction the validator does
not reject (rejected ones are skipped and kept); `next_nonce` is reset to
`base_nonce + 1` and then advanced once per resubmission; `base_nonce` is
unchanged; `base_timestamp` is cleared and then refreshed to the resend time
(staying cleared only when every pending transaction was rejected); and the
queue keeps the same requests. -/
theorem c4_timeout_retry (s : SignerState) (reverts : UpdateRequest → Bool)
    (now bt : Nat) (h2 : s.base_nonce + 1 < s.next_nonce)
    (h3 : s.base_timestamp = some bt) (h4 : TIMEOUT ≤ now - bt) :
    (sync_with_application s.base_nonce reverts now s).2 =
      (s.pending_transactions.filter
        (fun tx => !reverts tx.update_request)).map
        (fun tx => tx.update_request) ∧
    (sync_with_application s.base_nonce reverts now s).1.next_nonce =
      s.base_nonce + 1 +
        (s.pending_transactions.filter
          (fun tx => !reverts tx.update_request)).length ∧
    (sync_with_application s.base_nonce reverts now s).1.base_nonce =
      s.base_nonce ∧
    (sync_with_application s.base_nonce reverts now s).1.base_timestamp =
      (if (s.pending_transactions.filter
            (fun tx => !reverts tx.update_request)).isEmpty then
        none
       else some now) ∧
    (sync_with_application s.base_nonce reverts now s).1.pending_transactions.map
        (fun tx => tx.update_request) =
      s.pending_transactions.map (fun tx => tx.update_request) := by
  have hc : s.base_nonce = s.base_nonce ∧ s.base_nonce + 1 < s.next_nonce :=
    ⟨rfl, h2⟩
  have hspec := resendLoop_spec reverts now s.pending_transactions
    (s.base_nonce + 1) none
  unfold sync_with_application
  rw [if_pos hc, h3]
  simp only [h4, if_true]
  rcases hres : resendLoop reverts now s.pending_transactions
    (s.base_nonce + 1) none with ⟨queue, n, btv, subs⟩
  rw [hres] at hspec
  simp only at hspec
  simp only
  exact ⟨hspec.1, hspec.2.1, trivial, hspec.2.2.2, hspec.2.2.1⟩

theorem c4_timeout_retry_witness :
    5 + 1 < 7 ∧ TIMEOUT ≤ 300 - 0 ∧
    (sync_with_application 5 (fun _ => false) 300
        { base_nonce := 5, next_nonce := 7, base_timestamp := some 0,
          pending_transactions :=
            [{ update_request := { method := 0, nonce := 6 },
               timestamp := 0 }] }).2 =
      [{ method := 0, nonce := 6 }] :=
  ⟨by decide, by decide, by
    have h := c4_timeout_retry
      { base_nonce := 5, next_nonce := 7, base_timestamp := some 0,
        pending_transactions :=
          [{ update_request := { method := 0, nonce := 6 }, timestamp := 0 }] }
      (fun _ => false) 300 0 (by decide) rfl (by decide)
    rw [h.1]
    rfl⟩

/-- C5 counterexample: after a run in which a timeout retry skipped rejected
transactions (allowing a later submit to re-use nonce 7), a new-block
notification reporting application nonce 7 leaves the queue `[8, 7]`: the
pop-front loop only removes the finalized prefix, so the transaction with
nonce `7 ≤ 7` sitting behind nonce 8 remains in the queue even though
`base_nonce = 7`. -/
theorem c5_stale_nonce_remains :
    (List.map (fun tx => tx.update_request.nonce)
      (run (initState 5)
        [.submit 0 0, .submit 1 0, .submit 2 0,
         .newBlock 5 (fun r => decide (r.nonce < 8)) 300, .submit 3 300,
         .newBlock 7 (fun _ => false) 300]).1.pending_transactions = [8, 7]) ∧
    (run (initState 5)
        [.submit 0 0, .submit 1 0, .submit 2 0,
         .newBlock 5 (fun r => decide (r.nonce < 8)) 300, .submit 3 300,
         .newBlock 7 (fun _ => false) 300]).1.base_nonce = 7 ∧
    ¬ (∀ tx ∈ (run (initState 5)
        [.submit 0 0, .submit 1 0, .submit 2 0,
         .newBlock 5 (fun r => decide (r.nonce < 8)) 300, .submit 3 300,
         .newBlock 7 (fun _ => false) 300]).1.pending_transactions,
        7 < tx.update_request.nonce) := by
  refine ⟨rfl, rfl, ?_⟩
  intro hall
  have h := hall { update_request := { method := 3, nonce := 7 },
                   timestamp := 300 } (by decide)
  exact absurd h (by decide)

theorem popFinalized_gt (application_nonce : Nat) :
    ∀ txs : List PendingTransaction,
    txs.Pairwise
      (fun a b => a.update_request.nonce ≤ b.update_request.nonce) →
    ∀ tx ∈ popFinalized application_nonce txs,
      application_nonce < tx.update_request.nonce := by
  intro txs
  induction txs with
  | nil => intro _ tx htx; simp [popFinalized] at htx
  | cons hd rest ih =>
    intro hsorted tx htx
    rw [popFinalized] at htx
    by_cases hle : hd.update_request.nonce ≤ application_nonce
    · rw [if_pos hle] at htx
      exact ih (List.Pairwise.of_cons hsorted) tx htx
    · rw [if_neg hle] at htx
      rcases List.mem_cons.1 htx with h | h
      · subst h; omega
      · have := (List.pairwise_cons.1 hsorted).1 tx h
        omega

/-- C5 (amended): a new-block notification reporting
`application_nonce > base_nonce` sets `base_nonce` to the reported nonce,
performs no mempool submissions and — provided the pending queue's nonces are
nondecreasing, which holds in every run without a timeout retry that skips a
rejected transaction — leaves no pending transaction with nonce at most the
reported application nonce; in particular with pending nonces `6, 7, 8` and a
notification reporting 7, the queue becomes exactly the nonce-8 transaction
and `base_nonce = 7`. -/
theorem c5_advance_clears_finalized (s : SignerState)
    (application_nonce : Nat) (reverts : UpdateRequest → Bool) (now : Nat)
    (happ : s.base_nonce < application_nonce)
    (hsorted : s.pending_transactions.Pairwise
      (fun a b => a.update_request.nonce ≤ b.update_request.nonce)) :
    (sync_with_application application_nonce reverts now s).1.base_nonce =
      application_nonce ∧
    (∀ tx ∈ (sync_with_application application_nonce reverts now
        s).1.pending_transactions,
      application_nonce < tx.update_request.nonce) ∧
    (sync_with_application application_nonce reverts now s).2 = [] := by
  have hne : ¬ (s.base_nonce = application_nonce ∧
      s.base_nonce + 1 < s.next_nonce) := by
    intro hcon
    omega
  unfold sync_with_application
  rw [if_neg hne, if_pos happ]
  exact ⟨rfl, popFinalized_gt application_nonce s.pending_transactions hsorted,
    rfl⟩

theorem c5_advance_clears_finalized_witness :
    (run (initState 5) [.submit 0 0, .submit 1 0, .submit 2 0]).1.base_nonce
        < 7 ∧
    (List.map (fun tx => tx.update_request.nonce)
      (sync_with_application 7 (fun _ => false) 300
        (run (initState 5)
          [.submit 0 0, .submit 1 0, .submit 2 0]).1).1.pending_transactions =
      [8]) ∧
    (sync_with_application 7 (fun _ => false) 300
        (run (initState 5)
          [.submit 0 0, .submit 1 0, .submit 2 0]).1).1.base_nonce = 7 :=
  ⟨by decide, by rfl,
    (c5_advance_clears_finalized
      (run (initState 5) [.submit 0 0, .submit 1 0, .submit 2 0]).1
      7 (fun _ => false) 300 (by decide) (by decide)).1⟩

end Signer


/-! Consensus-to-execution output producer, from
`src/core/consensus/src/edge_node/consensus.rs` (lines 193-241). -/

namespace Consensus

/-- State of `consensus_output_producer_worker`: how many committed sub-dags
have been taken from `rx_sequence`, the `FuturesOrdered` queue `waiting`
(each entry is a pending `fetch` job: the sub-dag it was pushed for, and
whether its `join_all` over the batch pool has resolved), and the sub-dags
whose `ConsensusOutput` has been handed to
`execution.handle_consensus_output`, in order of delivery. -/
structure ProducerState where
  received : Nat
  waiting : List (Nat × Bool)
  emitted : List Nat

/-- Initial worker state: nothing received, `FuturesOrdered::new()`, nothing
emitted. -/
def initProducer : ProducerState := { received := 0, waiting := [], emitted := [] }

/-- One scheduler step of the worker loop, given the sub-dags `cs` committed
by the ordering engine in commit order.  `recv` is the
`rx_sequence.recv()` select arm: the next committed sub-dag is taken and its
`fetch` future pushed at the back of `waiting` (`FuturesOrdered::push_back`),
initially unresolved.  `finish` models the batch pool delivering the last
missing batch of a pending fetch job, resolving that inner future (any
queue position, reflecting concurrent fetches).  `emit` is the
`waiting.next()` select arm: per the `FuturesOrdered` contract, it yields a
resolved output only at the head of the queue, which the worker passes to
the execution engine. -/
inductive Step (cs : List Nat) : ProducerState → ProducerState → Prop
  | recv (s : ProducerState) (h : s.received < cs.length) :
      Step cs s
        { received := s.received + 1
          waiting := s.waiting ++ [(cs.get ⟨s.received, h⟩, false)]
          emitted := s.emitted }
  | finish (s : ProducerState) (i : Nat) (d : Nat)
      (h : s.waiting.get? i = some (d, false)) :
      Step cs s
        { received := s.received
          waiting := s.waiting.set i (d, true)
          emitted := s.emitted }
  | emit (s : ProducerState) (d : Nat) (rest : List (Nat × Bool))
      (h : s.waiting = (d, true) :: rest) :
      Step cs s
        { received := s.received
          waiting := rest
          emitted := s.emitted ++ [d] }

/-- A worker state reachable from the initial state by any interleaving of
sub-dag arrivals, fetch completions and deliveries. -/
def Reachable (cs : List Nat) (s : ProducerState) : Prop :=
  Relation.ReflTransGen (Step cs) initProducer s

theorem waiting_set_map_fst (w : List (Nat × Bool)) (i d : Nat)
    (h : w.get? i = some (d, false)) :
    (w.set i (d, true)).map Prod.fst = w.map Prod.fst := by
  induction w generalizing i with
  | nil => simp
  | cons hd tl ih =>
    cases i with
    | zero =>
      simp only [List.get?] at h
      cases h
      simp
    | succ j =>
      simp only [List.get?] at h
      simp [ih j h]

/-- C2: along every reachable interleaving, the sub-dags delivered to the
execution engine followed by the sub-dags still pending in the
`FuturesOrdered` queue are exactly the first `received` committed sub-dags in
commit order; consequently the delivered outputs are a prefix of the commit
order - an output for a later-committed sub-dag is never emitted before an
earlier-committed one, and none is skipped. -/
theorem c2_outputs_in_commit_order (cs : List Nat) (s : ProducerState)
    (h : Reachable cs s) :
    s.emitted ++ s.waiting.map Prod.fst = cs.take s.received ∧
    ∃ t : List Nat, s.emitted ++ t = cs := by
  have main : s.emitted ++ s.waiting.map Prod.fst = cs.take s.received ∧
      s.received ≤ cs.length := by
    induction h with
    | refl => simp [initProducer]
    | @tail t u hsteps hstep ih =>
      obtain ⟨ihinv, ihle⟩ := ih
      cases hstep with
      | recv h =>
        constructor
        · simp only [List.map_append, List.map_cons, List.map_nil]
          rw [← List.append_assoc, ihinv]
          rw [List.take_succ]
          have hg : cs[t.received]? = some (cs.get ⟨t.received, h⟩) := by
            rw [List.getElem?_eq_getElem h]
            rfl
          rw [hg]
          rfl
        · exact h
      | finish i d h =>
        refine ⟨?_, ihle⟩
        show t.emitted ++ (t.waiting.set i (d, true)).map Prod.fst = _
        rw [waiting_set_map_fst t.waiting i d h]
        exact ihinv
      | emit d rest h =>
        refine ⟨?_, ihle⟩
        show (t.emitted ++ [d]) ++ rest.map Prod.fst = List.take t.received cs
        rw [h] at ihinv
        simp only [List.map_cons] at ihinv
        rw [← ihinv]
        simp
  refine ⟨main.1, ?_⟩
  refine ⟨s.waiting.map Prod.fst ++ cs.drop s.received, ?_⟩
  rw [← List.append_assoc, main.1, List.take_append_drop]

theorem c2_outputs_in_commit_order_witness :
    Reachable [10, 20] ⟨2, [(20, false)], [10]⟩ ∧
    [10] ++ ([(20, false)].map Prod.fst) = [10, 20].take 2 := by
  have hreach : Reachable [10, 20] ⟨2, [(20, false)], [10]⟩ := by
    have s0 := Relation.ReflTransGen.refl (α := ProducerState)
      (r := Step [10, 20]) (a := initProducer)
    have s1 := Relation.ReflTransGen.tail s0
      (Step.recv initProducer (by decide))
    have s2 := Relation.ReflTransGen.tail s1
      (Step.recv _ (by decide))
    have s3 := Relation.ReflTransGen.tail s2
      (Step.finish _ 0 10 (by decide))
    have s4 := Relation.ReflTransGen.tail s3
      (Step.emit _ 10 [(20, false)] (by decide))
    exact s4
  exact ⟨hreach,
    (c2_outputs_in_commit_order [10, 20] ⟨2, [(20, false)], [10]⟩ hreach).1⟩

end Consensus



/-! Verified blake3 block-stream codec, from
`src/lib/blake3-stream/src/lib.rs`.

The codec depends on the repository's `blake3_tree` crate (`HashTree`,
`ProofBuf`, `ProofSizeEstimator`, `IncrementalVerifier`, `BlockHasher`),
whose sources are not part of the provided tree; its interface is modelled
from the spec below (`StreamModel`), and the properties the codec relies on
(proof sizes agreeing with the estimator, the incremental verifier accepting
the true proof/block sequence) are explicit hypotheses of the round-trip
theorem. -/

namespace Stream

/-- `BLOCK_SIZE = 256 * 1024`. -/
def BLOCK_SIZE : Nat := 256 * 1024

/-- Modelled from the spec: the interface of the missing `blake3_tree` crate
for one fixed content tree and root hash.  `proof i` is the byte buffer
`ProofBuf::new(&tree.tree, 0)` when `i = 0` and `ProofBuf::resume(&tree.tree,
i)` otherwise ("an initial proof preceding block 0, and a resumption proof
preceding every subsequent block; a proof may be empty").  `estimate i n` is
`ProofSizeEstimator::new(0, n).0` when `i = 0` and
`ProofSizeEstimator::resume(i, n).0` otherwise.  `IVSt` is the state of the
`IncrementalVerifier` created from the root hash (`ivInit`), with its
`is_done`, fallible `feed_proof`, and fallible `verify` of the
`BlockHasher` for a given block index and block bytes. -/
structure StreamModel where
  IVSt : Type
  ivInit : IVSt
  ivIsDone : IVSt → Bool
  ivFeedProof : IVSt → List Nat → Option IVSt
  ivVerify : IVSt → Nat → List Nat → Option IVSt
  proof : Nat → List Nat
  estimate : Nat → Nat → Nat

/-- The number of blocks of a content of length `len`:
`ceil(len / BLOCK_SIZE)`.  The encoder computes this as
`(tree.tree.len() + 1) / 2` (a blake3 tree over `n` blocks has `2n - 1`
nodes); the decoder computes it from the length header as
`(remaining + BLOCK_SIZE - 1) / BLOCK_SIZE` (line 168), which is the same
number. -/
def numBlocks (len : Nat) : Nat := (len + BLOCK_SIZE - 1) / BLOCK_SIZE

/-- The state of `Encoder` relevant to its `Write` impl: the staging
`buffer`, the next block index `block`, `num_blocks` and `content_len`.
(The writer's accumulated output is threaded separately.) -/
structure EncoderState where
  buffer : List Nat
  block : Nat
  num_blocks : Nat
  content_len : Nat

/-- `Encoder::new`: writes the 8-byte big-endian `content_len` header and
starts with an empty buffer at block 0. -/
def encoderNew (content_len : Nat) : List Nat × EncoderState :=
  (u64_to_be_bytes content_len,
    { buffer := [], block := 0, num_blocks := numBlocks content_len,
      content_len := content_len })

/-- The `while` loop of `Encoder::write`: as long as the buffer is nonempty
and either holds a full block or, at the last block index, exactly the final
`content_len % BLOCK_SIZE` bytes, emit the proof for the current block (when
nonempty) followed by `min(buffer.len, BLOCK_SIZE)` buffered bytes, then
advance the block index.  Returns the bytes written and the final state. -/
def encoderEmit (m : StreamModel) (st : EncoderState) :
    List Nat × EncoderState :=
  if h : st.buffer ≠ [] ∧ (BLOCK_SIZE ≤ st.buffer.length ∨
      (st.block = st.num_blocks - 1 ∧
        st.buffer.length = st.content_len % BLOCK_SIZE)) then
    let proof := m.proof st.block
    let bytes := st.buffer.take (min st.buffer.length BLOCK_SIZE)
    let out := (if proof.isEmpty then [] else proof) ++ bytes
    let st1 : EncoderState :=
      { st with buffer := st.buffer.drop (min st.buffer.length BLOCK_SIZE),
                block := st.block + 1 }
    let rest := encoderEmit m st1
    (out ++ rest.1, rest.2)
  else ([], st)
termination_by st.buffer.length
decreasing_by
  have hne : st.buffer.length ≠ 0 := by
    intro hz
    exact h.1 (List.eq_nil_of_length_eq_zero hz)
  simp only [List.length_drop]
  have hbs : 0 < BLOCK_SIZE := by decide
  omega

/-- `Encoder::write(buf)`: append `buf` to the staging buffer, then run the
emission loop. -/
def encoderWrite (m : StreamModel) (st : EncoderState) (buf : List Nat) :
    List Nat × EncoderState :=
  encoderEmit m { st with buffer := st.buffer ++ buf }

/-- Encoding a whole content in one `write_all` call (as the stream producer
does): the header written by `Encoder::new` followed by everything the
emission loop writes. -/
def encode (m : StreamModel) (content : List Nat) : List Nat :=
  (encoderNew content.length).1 ++
    (encoderWrite m (encoderNew content.length).2 content).1

/-- The `DecoderState` enum. -/
inductive DecoderState where
  | WaitingForHeader
  | WaitingForProof (len : Nat)
  | WaitingForBlock (len : Nat)
  | Finished

/-- `DecoderState::next_size`. -/
def DecoderState.next_size : DecoderState → Option Nat
  | .WaitingForHeader => some 8
  | .WaitingForProof proof_len => some proof_len
  | .WaitingForBlock block_len => some block_len
  | .Finished => none

/-- Rank used only for termination of the read loop: header processing leads
to proof processing, proof processing to block processing, and the block
arm returns. -/
def DecoderState.rank : DecoderState → Nat
  | .WaitingForHeader => 2
  | .WaitingForProof _ => 1
  | .WaitingForBlock _ => 0
  | .Finished => 0

/-- The state of `VerifiedDecoder`: the incremental verifier, the staging
`read_buffer`, the overflow `out_buffer`, the current block index, and the
header-derived `num_blocks` and `remaining` plus the state machine state. -/
structure DecoderSt (m : StreamModel) where
  iv : m.IVSt
  read_buffer : List Nat
  out_buffer : List Nat
  block : Nat
  num_blocks : Nat
  remaining : Nat
  state : DecoderState

/-- `VerifiedDecoder::new`. -/
def decoderNew (m : StreamModel) : DecoderSt m :=
  { iv := m.ivInit, read_buffer := [], out_buffer := [], block := 0,
    num_blocks := 0, remaining := 0, state := .WaitingForHeader }

/-- The outcome of one `VerifiedDecoder::read(buf)` call.  `panicked` models
an out-of-bounds slice index panic; `ok` carries the bytes written into the
caller's buffer, the new decoder state and the unconsumed reader chunks. -/
inductive ReadResult (m : StreamModel) where
  | panicked
  | ioError (kind : IoErrorKind)
  | ok (written : List Nat) (st : DecoderSt m) (chunks : List (List Nat))

/-- The header arm of the read loop (lines 163-171): consume 8 bytes, parse
the big-endian content length, derive the block count and the estimated size
of the proof preceding block 0. -/
def readHeaderStep (m : StreamModel) (st : DecoderSt m) (size : Nat) :
    DecoderSt m :=
  let bytes := st.read_buffer.take size
  let remaining := u64_from_be_bytes (bytes.take 8)
  let num_blocks := (remaining + BLOCK_SIZE - 1) / BLOCK_SIZE
  let proof_len := m.estimate 0 num_blocks
  { st with read_buffer := st.read_buffer.drop size, remaining := remaining,
            num_blocks := num_blocks,
            state := .WaitingForProof proof_len }

/-- The fallible part of the proof arm (lines 173-179): feed the buffered
proof bytes to the incremental verifier, skipping the call when the expected
size is zero. -/
def feedProofStep (m : StreamModel) (st : DecoderSt m) (size : Nat) :
    Option m.IVSt :=
  if size ≠ 0 then m.ivFeedProof st.iv (st.read_buffer.take size)
  else some st.iv

/-- The rest of the proof arm (lines 181-191): compute the next block's
length (`BLOCK_SIZE` except at the last block, whose length is
`remaining % BLOCK_SIZE`, or `BLOCK_SIZE` when that is zero) and await it. -/
def proofNextState (m : StreamModel) (st : DecoderSt m) (size : Nat)
    (iv2 : m.IVSt) : DecoderSt m :=
  let block_len :=
    if st.block < st.num_blocks - 1 then BLOCK_SIZE
    else
      let len := st.remaining % BLOCK_SIZE
      if len = 0 then BLOCK_SIZE else len
  { st with iv := iv2, read_buffer := st.read_buffer.drop size,
            state := .WaitingForBlock block_len }

/-- The tail of the block arm after successful verification (lines 206-227):
advance the block index and state, then copy the verified bytes into the
caller's buffer.  When the block bytes exceed the caller's buffer, the
source computes `take = bytes.len() - buf.len()` and runs
`buf[..take].copy_from_slice(&bytes.split_to(take))`, which panics when
`take > buf.len()`; otherwise `buf[..take]` receives the first `take` block
bytes and the rest go to `out_buffer`. -/
def blockOutcome (m : StreamModel) (bufLen : Nat) (st : DecoderSt m)
    (size : Nat) (iv2 : m.IVSt) (chunks : List (List Nat)) : ReadResult m :=
  let bytes := st.read_buffer.take size
  let block2 := st.block + 1
  let state2 :=
    if block2 < st.num_blocks then
      DecoderState.WaitingForProof (m.estimate block2 st.num_blocks)
    else .Finished
  let st2 : DecoderSt m :=
    { st with iv := iv2, read_buffer := st.read_buffer.drop size,
              block := block2, state := state2 }
  if bufLen < bytes.length then
    let take := bytes.length - bufLen
    if bufLen < take then .panicked
    else .ok (bytes.take take)
      { st2 with out_buffer := st2.out_buffer ++ bytes.drop take } chunks
  else .ok (bytes.take (min bytes.length bufLen)) st2 chunks

/-- One iteration of the `loop` of `VerifiedDecoder::read` (lines 159-254).
`bufLen` is the length of the caller's buffer.  The inner reader is modelled
by `chunks`: each element is the result of one successful `self.reader.read`,
and an exhausted list models the reader returning 0.  The three state-machine
arms are the step functions above; the block arm's `verify` failure maps to
`InvalidData` like `feed_proof`'s.  `inl` is a continuation (the `loop`
repeats with the new state), `inr` a return from `read`. -/
def readLoopStep (m : StreamModel) (bufLen : Nat) (st : DecoderSt m)
    (chunks : List (List Nat)) :
    (DecoderSt m × List (List Nat)) ⊕ ReadResult m :=
  match st.state.next_size with
  | some size =>
    if size ≤ st.read_buffer.length then
      match st.state with
      | .WaitingForHeader => .inl (readHeaderStep m st size, chunks)
      | .WaitingForProof _ =>
        match feedProofStep m st size with
        | none => .inr (.ioError .InvalidData)
        | some iv2 => .inl (proofNextState m st size iv2, chunks)
      | .WaitingForBlock _ =>
        match m.ivVerify st.iv st.block (st.read_buffer.take size) with
        | none => .inr (.ioError .InvalidData)
        | some iv2 => .inr (blockOutcome m bufLen st size iv2 chunks)
      | .Finished => .inr (.ok [] st chunks)
    else
      match chunks with
      | [] =>
        if st.read_buffer.isEmpty then .inr (.ok [] st [])
        else .inr (.ioError .ConnectionReset)
      | c :: cs => .inl ({ st with read_buffer := st.read_buffer ++ c }, cs)
  | none => .inr (.ok [] st chunks)

/-- Each continuation of the read loop consumes a reader chunk or moves the
state machine strictly down the header-to-proof-to-block chain. -/
theorem readLoopStep_dec (m : StreamModel) (bufLen : Nat) (st : DecoderSt m)
    (chunks : List (List Nat)) (sc : DecoderSt m × List (List Nat))
    (h : readLoopStep m bufLen st chunks = .inl sc) :
    Prod.Lex (· < ·) (· < ·) (sc.2.length, sc.1.state.rank)
      (chunks.length, st.state.rank) := by
  unfold readLoopStep at h
  split at h
  · split at h
    · split at h
      · cases h
        apply Prod.Lex.right
        simp [readHeaderStep, DecoderState.rank, *]
      · split at h
        · cases h
        · cases h
          apply Prod.Lex.right
          simp [proofNextState, DecoderState.rank, *]
      · split at h <;> cases h
      · cases h
    · split at h
      · split at h <;> cases h
      · cases h
        apply Prod.Lex.left
        simp
  · cases h

/-- The `loop` of `VerifiedDecoder::read`: iterate `readLoopStep` until it
returns. -/
def readLoop (m : StreamModel) (bufLen : Nat) (st : DecoderSt m)
    (chunks : List (List Nat)) : ReadResult m :=
  match h : readLoopStep m bufLen st chunks with
  | .inr r => r
  | .inl sc => readLoop m bufLen sc.1 sc.2
termination_by (chunks.length, st.state.rank)
decreasing_by exact readLoopStep_dec m bufLen st chunks sc h

/-- A loop iteration that continues. -/
theorem readLoop_inl (m : StreamModel) (bufLen : Nat) (st st2 : DecoderSt m)
    (chunks chunks2 : List (List Nat))
    (h : readLoopStep m bufLen st chunks = .inl (st2, chunks2)) :
    readLoop m bufLen st chunks = readLoop m bufLen st2 chunks2 := by
  rw [readLoop.eq_def, h]

/-- A loop iteration that returns. -/
theorem readLoop_inr (m : StreamModel) (bufLen : Nat) (st : DecoderSt m)
    (chunks : List (List Nat)) (r : ReadResult m)
    (h : readLoopStep m bufLen st chunks = .inr r) :
    readLoop m bufLen st chunks = r := by
  rw [readLoop.eq_def, h]

end Stream
namespace Stream

/-- `VerifiedDecoder::read(buf)` (lines 148-157 then the loop): return 0
immediately when the verifier is done; otherwise flush as much of
`out_buffer` as fits in the caller's buffer; otherwise run the state-machine
loop. -/
def decoderRead (m : StreamModel) (bufLen : Nat) (st : DecoderSt m)
    (chunks : List (List Nat)) : ReadResult m :=
  if m.ivIsDone st.iv then .ok [] st chunks
  else if ¬ st.out_buffer.isEmpty then
    let take := min st.out_buffer.length bufLen
    .ok (st.out_buffer.take take)
      { st with out_buffer := st.out_buffer.drop take } chunks
  else readLoop m bufLen st chunks

/-- Outcome of driving the decoder to the end of the stream. -/
inductive DecodeOutcome where
  | panicked
  | ioError (kind : IoErrorKind)
  | fuelOut
  | bytes (content : List Nat)

/-- Read to the end of the stream (as `read_to_end` does), calling
`decoderRead` with a caller buffer of `BLOCK_SIZE` bytes until a read
returns no bytes; `fuel` bounds the number of read calls. -/
def decodeToEnd (m : StreamModel) :
    Nat → DecoderSt m → List (List Nat) → List Nat → DecodeOutcome
  | 0, _, _, _ => .fuelOut
  | fuel + 1, st, chunks, acc =>
    match decoderRead m BLOCK_SIZE st chunks with
    | .panicked => .panicked
    | .ioError kind => .ioError kind
    | .ok written st2 chunks2 =>
      if written.isEmpty then .bytes acc
      else decodeToEnd m fuel st2 chunks2 (acc ++ written)

/-- Block `i` of a content: bytes `i * BLOCK_SIZE` to
`(i + 1) * BLOCK_SIZE` (exclusive, truncated at the end). -/
def chunkAt (content : List Nat) (i : Nat) : List Nat :=
  (content.drop (i * BLOCK_SIZE)).take BLOCK_SIZE

/-- The body of an encoded stream from block `i` on: proof then block bytes
for each remaining block. -/
def streamBody (m : StreamModel) (content : List Nat) (n i : Nat) :
    List Nat :=
  if i < n then
    (m.proof i ++ chunkAt content i) ++ streamBody m content n (i + 1)
  else []
termination_by n - i

/-- One verifier round for block `i`: feed the proof when the decoder would
(its estimated size is nonzero), then verify the block bytes. -/
def ivStep (m : StreamModel) (content : List Nat) (n i : Nat)
    (s : m.IVSt) : Option m.IVSt :=
  (if m.estimate i n ≠ 0 then m.ivFeedProof s (m.proof i) else some s).bind
    (fun s2 => m.ivVerify s2 i (chunkAt content i))

/-- The verifier state after the first `i` rounds. -/
def ivChain (m : StreamModel) (content : List Nat) (n : Nat) :
    Nat → Option m.IVSt
  | 0 => some m.ivInit
  | i + 1 => (ivChain m content n i).bind (ivStep m content n i)

/-- Modelled from the spec: the properties of the missing `blake3_tree`
crate that the codec relies on, for a fixed content.  The proof the encoder
emits for each block has exactly the size the decoder's estimator predicts;
the incremental verifier accepts the true proof/block sequence; and it does
not report `is_done` before the last block has been verified. -/
abbrev Consistent (m : StreamModel) (content : List Nat) : Prop :=
  (∀ i < numBlocks content.length,
    (m.proof i).length = m.estimate i (numBlocks content.length)) ∧
  (∀ i ≤ numBlocks content.length,
    (ivChain m content (numBlocks content.length) i).isSome = true) ∧
  (∀ i < numBlocks content.length,
    (ivChain m content (numBlocks content.length) i).all
      (fun s => !m.ivIsDone s) = true)

/-- A trivial instance of the blake3 model: unit verifier state, empty
proofs, zero estimates, verification always passing.  Used to evaluate the
codec state machines on concrete inputs. -/
def trivialModel : StreamModel :=
  { IVSt := Unit
    ivInit := ()
    ivIsDone := fun _ => false
    ivFeedProof := fun s _ => some s
    ivVerify := fun s _ _ => some s
    proof := fun _ => []
    estimate := fun _ _ => 0 }

end Stream

namespace Stream

theorem numBlocks_pos (L : Nat) (h : 0 < L) : 0 < numBlocks L := by
  simp only [numBlocks, BLOCK_SIZE]
  omega

theorem block_arith (L j : Nat) (h : 0 < L) (hj : j < numBlocks L) :
    j * BLOCK_SIZE < L ∧
    (j < numBlocks L - 1 → BLOCK_SIZE ≤ L - j * BLOCK_SIZE) ∧
    (L - j * BLOCK_SIZE < BLOCK_SIZE →
      j = numBlocks L - 1 ∧ L - j * BLOCK_SIZE = L % BLOCK_SIZE) ∧
    (L - j * BLOCK_SIZE ≤ BLOCK_SIZE → L ≤ (j + 1) * BLOCK_SIZE) ∧
    L ≤ numBlocks L * BLOCK_SIZE := by
  simp only [numBlocks, BLOCK_SIZE] at *
  omega

theorem end_of_content (L : Nat) (h : 0 < L) :
    L ≤ numBlocks L * BLOCK_SIZE := by
  simp only [numBlocks, BLOCK_SIZE]
  omega

theorem chunkAt_length (content : List Nat) (i : Nat) :
    (chunkAt content i).length =
      min BLOCK_SIZE (content.length - i * BLOCK_SIZE) := by
  simp [chunkAt]

theorem if_isEmpty_eq (l : List Nat) : (if l.isEmpty then [] else l) = l := by
  cases l <;> simp

theorem chunkAt_eq_take (content : List Nat) (i : Nat) :
    chunkAt content i =
      (content.drop (i * BLOCK_SIZE)).take
        (min (content.length - i * BLOCK_SIZE) BLOCK_SIZE) := by
  rcases Nat.le_total BLOCK_SIZE (content.length - i * BLOCK_SIZE) with h | h
  · rw [chunkAt, Nat.min_eq_right h]
  · rw [chunkAt, Nat.min_eq_left h]
    have hlen : (content.drop (i * BLOCK_SIZE)).length =
        content.length - i * BLOCK_SIZE := by simp
    rw [List.take_of_length_le (le_of_eq hlen),
      List.take_of_length_le (by omega)]

theorem encoderEmit_spec (m : StreamModel) (content : List Nat)
    (hpos : 0 < content.length) :
    ∀ k j, numBlocks content.length - j ≤ k → j ≤ numBlocks content.length →
    encoderEmit m
        { buffer := content.drop (j * BLOCK_SIZE), block := j,
          num_blocks := numBlocks content.length,
          content_len := content.length } =
      (streamBody m content (numBlocks content.length) j,
        { buffer := [], block := numBlocks content.length,
          num_blocks := numBlocks content.length,
          content_len := content.length }) := by
  intro k
  induction k with
  | zero =>
    intro j hk hj
    have hjn : j = numBlocks content.length := by omega
    have hnil : content.drop (j * BLOCK_SIZE) = [] := by
      apply List.drop_eq_nil_of_le
      have h1 := end_of_content content.length hpos
      have h2 : numBlocks content.length * BLOCK_SIZE ≤ j * BLOCK_SIZE :=
        Nat.mul_le_mul_right _ (le_of_eq hjn.symm)
      omega
    rw [hnil, encoderEmit]
    rw [dif_neg (by simp)]
    rw [streamBody, if_neg (by omega), hjn]
  | succ k ih =>
    intro j hk hj
    by_cases hjn : j = numBlocks content.length
    · have hnil : content.drop (j * BLOCK_SIZE) = [] := by
        apply List.drop_eq_nil_of_le
        have h1 := end_of_content content.length hpos
        have h2 : numBlocks content.length * BLOCK_SIZE ≤ j * BLOCK_SIZE :=
          Nat.mul_le_mul_right _ (le_of_eq hjn.symm)
        omega
      rw [hnil, encoderEmit]
      rw [dif_neg (by simp)]
      rw [streamBody, if_neg (by omega), hjn]
    · have hjlt : j < numBlocks content.length := by omega
      obtain ⟨hjb, hfull, hlast, hnext, hend⟩ :=
        block_arith content.length j hpos hjlt
      have hbuflen : (content.drop (j * BLOCK_SIZE)).length =
          content.length - j * BLOCK_SIZE := by simp
      have hcond : content.drop (j * BLOCK_SIZE) ≠ [] ∧
          (BLOCK_SIZE ≤ (content.drop (j * BLOCK_SIZE)).length ∨
            (j = numBlocks content.length - 1 ∧
              (content.drop (j * BLOCK_SIZE)).length =
                content.length % BLOCK_SIZE)) := by
      -- placeholder
        constructor
        · intro hnil2
          rw [hnil2] at hbuflen
          simp at hbuflen
          omega
        · rw [hbuflen]
          rcases Nat.lt_or_ge (content.length - j * BLOCK_SIZE) BLOCK_SIZE
            with hc | hc
          · exact Or.inr (hlast hc)
          · exact Or.inl hc
      rw [encoderEmit, dif_pos hcond]
      have hmin : min (content.drop (j * BLOCK_SIZE)).length BLOCK_SIZE =
          min (content.length - j * BLOCK_SIZE) BLOCK_SIZE := by
        rw [hbuflen]
      have hbytes : (content.drop (j * BLOCK_SIZE)).take
          (min (content.drop (j * BLOCK_SIZE)).length BLOCK_SIZE) =
          chunkAt content j := by
        rw [hmin, ← chunkAt_eq_take]
      have hdropnext : (content.drop (j * BLOCK_SIZE)).drop
          (min (content.drop (j * BLOCK_SIZE)).length BLOCK_SIZE) =
          content.drop ((j + 1) * BLOCK_SIZE) := by
        rw [List.drop_drop, hmin]
        rcases Nat.le_total BLOCK_SIZE (content.length - j * BLOCK_SIZE)
          with hc | hc
        · rw [Nat.min_eq_right hc]
          have harith : j * BLOCK_SIZE + BLOCK_SIZE = (j + 1) * BLOCK_SIZE := by
            ring
          rw [harith]
        · rw [Nat.min_eq_left hc]
          have hn1 : content.length ≤
              j * BLOCK_SIZE + (content.length - j * BLOCK_SIZE) := by omega
          rw [List.drop_eq_nil_of_le hn1,
            List.drop_eq_nil_of_le (hnext hc)]
      simp only
      rw [hbytes, hdropnext]
      rw [ih (j + 1) (by omega) (by omega)]
      rw [if_isEmpty_eq]
      conv_rhs => rw [streamBody]
      rw [if_pos hjlt]

theorem encode_eq (m : StreamModel) (content : List Nat)
    (hpos : 0 < content.length) :
    encode m content =
      u64_to_be_bytes content.length ++
        streamBody m content (numBlocks content.length) 0 := by
  rw [encode, encoderNew, encoderWrite]
  simp only [List.nil_append]
  have h := encoderEmit_spec m content hpos (numBlocks content.length) 0
    (by omega) (by omega)
  simp only [Nat.zero_mul, List.drop_zero] at h
  rw [h]

end Stream
namespace Stream

/-- The decoder state at the start of the read that will deliver block `i`
(for `i` equal to `numBlocks`, the final state): everything up to block `i`
consumed and verified, the rest of the stream body buffered. -/
def midState (m : StreamModel) (content : List Nat) (i : Nat)
    (iv : m.IVSt) : DecoderSt m :=
  { iv := iv
    read_buffer := streamBody m content (numBlocks content.length) i
    out_buffer := []
    block := i
    num_blocks := numBlocks content.length
    remaining := content.length
    state :=
      if i < numBlocks content.length then
        DecoderState.WaitingForProof (m.estimate i (numBlocks content.length))
      else .Finished }

theorem block_len_eq (content : List Nat) (hpos : 0 < content.length)
    (i : Nat) (hi : i < numBlocks content.length) :
    (if i < numBlocks content.length - 1 then BLOCK_SIZE
     else
       if content.length % BLOCK_SIZE = 0 then BLOCK_SIZE
       else content.length % BLOCK_SIZE) = (chunkAt content i).length := by
  rw [chunkAt_length]
  by_cases hlt : i < numBlocks content.length - 1
  · rw [if_pos hlt]
    obtain ⟨_, hfull, _, _, _⟩ := block_arith content.length i hpos hi
    rw [Nat.min_eq_left (hfull hlt)]
  · rw [if_neg hlt]
    have hieq : i = numBlocks content.length - 1 := by
      have := numBlocks_pos content.length hpos
      omega
    subst hieq
    simp only [numBlocks, BLOCK_SIZE, Nat.min_def] at *
    split_ifs <;> omega

theorem chunk_len_le (content : List Nat) (i : Nat) :
    (chunkAt content i).length ≤ BLOCK_SIZE := by
  rw [chunkAt_length]
  omega

theorem chunk_len_pos (content : List Nat) (hpos : 0 < content.length)
    (i : Nat) (hi : i < numBlocks content.length) :
    0 < (chunkAt content i).length := by
  rw [chunkAt_length]
  obtain ⟨hjb, _, _, _, _⟩ := block_arith content.length i hpos hi
  have : 0 < BLOCK_SIZE := by decide
  omega

theorem streamBody_unfold (m : StreamModel) (content : List Nat) (i : Nat)
    (hi : i < numBlocks content.length) :
    streamBody m content (numBlocks content.length) i =
      (m.proof i ++ chunkAt content i) ++
        streamBody m content (numBlocks content.length) (i + 1) := by
  conv_lhs => rw [streamBody]
  rw [if_pos hi]

theorem proofNextState_eq (m : StreamModel) (content : List Nat)
    (hpos : 0 < content.length) (i : Nat)
    (hi : i < numBlocks content.length) (s : m.IVSt) (s2 : m.IVSt)
    (hplen : (m.proof i).length = m.estimate i (numBlocks content.length)) :
    proofNextState m (midState m content i s)
        (m.estimate i (numBlocks content.length)) s2 =
      ⟨s2, chunkAt content i ++
          streamBody m content (numBlocks content.length) (i + 1), [], i,
        numBlocks content.length, content.length,
        .WaitingForBlock (chunkAt content i).length⟩ := by
  rw [proofNextState]
  simp only [midState, if_pos hi]
  rw [streamBody_unfold m content i hi, List.append_assoc,
    List.drop_left' hplen]
  rw [block_len_eq content hpos i hi]

theorem blockOutcome_eq (m : StreamModel) (content : List Nat) (i : Nat)
    (hi : i < numBlocks content.length) (s2 s' : m.IVSt) :
    blockOutcome m BLOCK_SIZE
        ⟨s2, chunkAt content i ++
            streamBody m content (numBlocks content.length) (i + 1), [], i,
          numBlocks content.length, content.length,
          .WaitingForBlock (chunkAt content i).length⟩
        (chunkAt content i).length s' [] =
      .ok (chunkAt content i) (midState m content (i + 1) s') [] := by
  have hclen := chunk_len_le content i
  rw [blockOutcome]
  simp only
  rw [List.take_left, List.drop_left]
  rw [if_neg (Nat.not_lt.2 hclen), Nat.min_eq_left hclen, List.take_length]
  rw [midState]

theorem readLoop_proof_step (m : StreamModel) (bufLen : Nat)
    (st : DecoderSt m) (e : Nat) (iv2 : m.IVSt) (chunks : List (List Nat))
    (hstate : st.state = .WaitingForProof e)
    (hge : e ≤ st.read_buffer.length)
    (hfp : feedProofStep m st e = some iv2) :
    readLoop m bufLen st chunks =
      readLoop m bufLen (proofNextState m st e iv2) chunks := by
  apply readLoop_inl
  unfold readLoopStep
  simp only [hstate, DecoderState.next_size]
  rw [if_pos hge, hfp]

theorem readLoop_block_step (m : StreamModel) (bufLen : Nat)
    (st : DecoderSt m) (b : Nat) (iv2 : m.IVSt) (chunks : List (List Nat))
    (hstate : st.state = .WaitingForBlock b)
    (hge : b ≤ st.read_buffer.length)
    (hv : m.ivVerify st.iv st.block (st.read_buffer.take b) = some iv2) :
    readLoop m bufLen st chunks = blockOutcome m bufLen st b iv2 chunks := by
  apply readLoop_inr
  unfold readLoopStep
  simp only [hstate, DecoderState.next_size]
  rw [if_pos hge, hv]

theorem readLoop_header_step (m : StreamModel) (bufLen : Nat)
    (st : DecoderSt m) (chunks : List (List Nat))
    (hstate : st.state = .WaitingForHeader)
    (hge : 8 ≤ st.read_buffer.length) :
    readLoop m bufLen st chunks =
      readLoop m bufLen (readHeaderStep m st 8) chunks := by
  apply readLoop_inl
  unfold readLoopStep
  simp only [hstate, DecoderState.next_size]
  rw [if_pos hge]

theorem readLoop_refill (m : StreamModel) (bufLen : Nat) (st : DecoderSt m)
    (c : List Nat) (cs : List (List Nat)) (e : Nat)
    (hsz : st.state.next_size = some e)
    (hlt : st.read_buffer.length < e) :
    readLoop m bufLen st (c :: cs) =
      readLoop m bufLen
        { st with read_buffer := st.read_buffer ++ c } cs := by
  apply readLoop_inl
  unfold readLoopStep
  simp only [hsz]
  rw [if_neg (by omega)]

theorem readLoop_finished (m : StreamModel) (bufLen : Nat)
    (st : DecoderSt m) (chunks : List (List Nat))
    (hstate : st.state = .Finished) :
    readLoop m bufLen st chunks = .ok [] st chunks := by
  apply readLoop_inr
  unfold readLoopStep
  simp only [hstate, DecoderState.next_size]

theorem readLoop_block (m : StreamModel) (content : List Nat)
    (hpos : 0 < content.length) (hcons : Consistent m content) (i : Nat)
    (hi : i < numBlocks content.length) (s s' : m.IVSt)
    (hs : ivChain m content (numBlocks content.length) i = some s)
    (hs' : ivChain m content (numBlocks content.length) (i + 1) = some s') :
    readLoop m BLOCK_SIZE (midState m content i s) [] =
      .ok (chunkAt content i) (midState m content (i + 1) s') [] := by
  have hplen : (m.proof i).length =
      m.estimate i (numBlocks content.length) := hcons.1 i hi
  have hstep : ivStep m content (numBlocks content.length) i s = some s' := by
    rw [ivChain, hs, Option.some_bind] at hs'
    exact hs'
  rw [ivStep] at hstep
  obtain ⟨s2, hfeed, hverify⟩ := Option.bind_eq_some.1 hstep
  have hbody := streamBody_unfold m content i hi
  have hge : m.estimate i (numBlocks content.length) ≤
      (streamBody m content (numBlocks content.length) i).length := by
    rw [hbody]
    simp only [List.length_append]
    omega
  have htake : List.take (m.estimate i (numBlocks content.length))
      (streamBody m content (numBlocks content.length) i) = m.proof i := by
    rw [hbody, List.append_assoc]
    exact List.take_left' hplen
  have hfp : feedProofStep m (midState m content i s)
      (m.estimate i (numBlocks content.length)) = some s2 := by
    rw [feedProofStep]
    simp only [midState]
    rw [htake]
    exact hfeed
  have hstate1 : (midState m content i s).state =
      .WaitingForProof (m.estimate i (numBlocks content.length)) := by
    rw [midState, if_pos hi]
  rw [readLoop_proof_step m BLOCK_SIZE (midState m content i s)
    (m.estimate i (numBlocks content.length)) s2 [] hstate1 hge hfp]
  rw [proofNextState_eq m content hpos i hi s s2 hplen]
  rw [readLoop_block_step m BLOCK_SIZE _ (chunkAt content i).length s' []
    rfl (by simp) (by rw [List.take_left]; exact hverify)]
  exact blockOutcome_eq m content i hi s2 s'

end Stream

namespace Stream

theorem isDone_false_of_chain (m : StreamModel) (content : List Nat)
    (hcons : Consistent m content) (i : Nat)
    (hi : i < numBlocks content.length) (s : m.IVSt)
    (hs : ivChain m content (numBlocks content.length) i = some s) :
    m.ivIsDone s = false := by
  have h := hcons.2.2 i hi
  rw [hs] at h
  simp only [Option.all] at h
  cases hdone : m.ivIsDone s
  · rfl
  · rw [hdone] at h
    simp at h

theorem decoderRead_mid (m : StreamModel) (content : List Nat)
    (hpos : 0 < content.length) (hcons : Consistent m content) (i : Nat)
    (hi : i < numBlocks content.length) (s s' : m.IVSt)
    (hs : ivChain m content (numBlocks content.length) i = some s)
    (hs' : ivChain m content (numBlocks content.length) (i + 1) = some s') :
    decoderRead m BLOCK_SIZE (midState m content i s) [] =
      .ok (chunkAt content i) (midState m content (i + 1) s') [] := by
  have hdone := isDone_false_of_chain m content hcons i hi s hs
  rw [decoderRead]
  rw [if_neg (by simp [midState, hdone])]
  rw [if_neg (by simp [midState])]
  exact readLoop_block m content hpos hcons i hi s s' hs hs'

theorem decoderRead_start (m : StreamModel) (content : List Nat)
    (hpos : 0 < content.length) (hlen64 : content.length < 2 ^ 64)
    (hcons : Consistent m content) (s1 : m.IVSt)
    (hs1 : ivChain m content (numBlocks content.length) 1 = some s1) :
    decoderRead m BLOCK_SIZE (decoderNew m) [encode m content] =
      .ok (chunkAt content 0) (midState m content 1 s1) [] := by
  have hn := numBlocks_pos content.length hpos
  have hdone0 : m.ivIsDone m.ivInit = false :=
    isDone_false_of_chain m content hcons 0 hn m.ivInit rfl
  have hlen8 : (u64_to_be_bytes content.length).length = 8 := rfl
  have hlenc : 8 ≤ (encode m content).length := by
    rw [encode_eq m content hpos]
    simp only [List.length_append]
    omega
  rw [decoderRead]
  rw [if_neg (by simp [decoderNew, hdone0])]
  rw [if_neg (by simp [decoderNew])]
  have hst1 : ({ decoderNew m with
      read_buffer := (decoderNew m).read_buffer ++ encode m content } :
        DecoderSt m) =
      (⟨m.ivInit, encode m content, [], 0, 0, 0,
        .WaitingForHeader⟩ : DecoderSt m) := rfl
  rw [readLoop_refill m BLOCK_SIZE (decoderNew m) (encode m content) [] 8
    rfl (by simp [decoderNew]), hst1]
  rw [readLoop_header_step m BLOCK_SIZE _ [] rfl hlenc]
  have hhead : readHeaderStep m
      (⟨m.ivInit, encode m content, [], 0, 0, 0,
        .WaitingForHeader⟩ : DecoderSt m) 8 =
      midState m content 0 m.ivInit := by
    rw [readHeaderStep]
    simp only
    rw [encode_eq m content hpos]
    rw [List.take_left' hlen8]
    rw [List.take_of_length_le (le_of_eq hlen8)]
    rw [u64_roundtrip content.length hlen64]
    rw [List.drop_left' hlen8]
    rw [midState, if_pos hn]
    rfl
  rw [hhead]
  exact readLoop_block m content hpos hcons 0 hn m.ivInit s1 rfl hs1

theorem decoderRead_end (m : StreamModel) (content : List Nat)
    (s : m.IVSt) :
    ∃ st2 : DecoderSt m,
      decoderRead m BLOCK_SIZE
        (midState m content (numBlocks content.length) s) [] =
        .ok [] st2 [] := by
  rw [decoderRead]
  cases hdone : m.ivIsDone s
  · rw [if_neg (by simp [midState, hdone])]
    rw [if_neg (by simp [midState])]
    rw [readLoop_finished m BLOCK_SIZE _ [] (by simp [midState])]
    exact ⟨_, rfl⟩
  · rw [if_pos (by simp [midState, hdone])]
    exact ⟨_, rfl⟩

theorem chunk_cons_drop (content : List Nat) (i : Nat) :
    chunkAt content i ++ content.drop ((i + 1) * BLOCK_SIZE) =
      content.drop (i * BLOCK_SIZE) := by
  have harith : i * BLOCK_SIZE + BLOCK_SIZE = (i + 1) * BLOCK_SIZE := by
    ring
  have h : (content.drop (i * BLOCK_SIZE)).drop BLOCK_SIZE =
      content.drop ((i + 1) * BLOCK_SIZE) := by
    rw [List.drop_drop, harith]
  rw [chunkAt, ← h, List.take_append_drop]

theorem chunk_isEmpty_false (content : List Nat)
    (hpos : 0 < content.length) (i : Nat)
    (hi : i < numBlocks content.length) :
    (chunkAt content i).isEmpty = false := by
  have h := chunk_len_pos content hpos i hi
  cases hc : chunkAt content i
  · rw [hc] at h
    simp at h
  · rfl

theorem decodeToEnd_mid (m : StreamModel) (content : List Nat)
    (hpos : 0 < content.length) (hcons : Consistent m content) :
    ∀ k i, numBlocks content.length - i ≤ k →
      i ≤ numBlocks content.length → ∀ (s : m.IVSt) (acc : List Nat),
      ivChain m content (numBlocks content.length) i = some s →
      decodeToEnd m (k + 1) (midState m content i s) [] acc =
        .bytes (acc ++ content.drop (i * BLOCK_SIZE)) := by
  intro k
  induction k with
  | zero =>
    intro i hk hi s acc hs
    have hieq : i = numBlocks content.length := by omega
    subst hieq
    obtain ⟨st2, hend⟩ := decoderRead_end m content s
    rw [decodeToEnd, hend]
    have hdropnil :
        content.drop (numBlocks content.length * BLOCK_SIZE) = [] := by
      apply List.drop_eq_nil_of_le
      have h1 := end_of_content content.length hpos
      omega
    rw [hdropnil]
    simp
  | succ k ih =>
    intro i hk hi s acc hs
    by_cases hieq : i = numBlocks content.length
    · subst hieq
      obtain ⟨st2, hend⟩ := decoderRead_end m content s
      rw [decodeToEnd, hend]
      have hdropnil :
          content.drop (numBlocks content.length * BLOCK_SIZE) = [] := by
        apply List.drop_eq_nil_of_le
        have h1 := end_of_content content.length hpos
        omega
      rw [hdropnil]
      simp
    · have hilt : i < numBlocks content.length := by omega
      have hnext : (ivChain m content (numBlocks content.length)
          (i + 1)).isSome = true := hcons.2.1 (i + 1) (by omega)
      obtain ⟨s', hs'⟩ := Option.isSome_iff_exists.1 hnext
      rw [decodeToEnd,
        decoderRead_mid m content hpos hcons i hilt s s' hs hs']
      show (if (chunkAt content i).isEmpty then DecodeOutcome.bytes acc
        else decodeToEnd m (k + 1) (midState m content (i + 1) s') []
          (acc ++ chunkAt content i)) = _
      rw [chunk_isEmpty_false content hpos i hilt]
      simp only [Bool.false_eq_true, if_false]
      rw [ih (i + 1) (by omega) (by omega) s' (acc ++ chunkAt content i) hs']
      rw [List.append_assoc, chunk_cons_drop]

end Stream

namespace Stream

/-- C1: for every content and every behaviour of the blake3 proof subsystem
consistent with the stream layout (proof sizes matching the estimator and the
incremental verifier accepting the true proof/block sequence - the
`blake3_tree` crate properties, modelled from the spec), encoding the content
with the `Encoder` and then decoding the result with `VerifiedDecoder` yields
exactly the original content bytes; the encoded stream begins with the 8-byte
big-endian content length, which for `L = 262144` is
`0x00 0x00 0x00 0x00 0x00 0x04 0x00 0x00`. -/
theorem c1_stream_roundtrip (m : StreamModel) (content : List Nat)
    (hpos : content ≠ []) (hlen64 : content.length < 2 ^ 64)
    (hcons : Consistent m content) :
    decodeToEnd m (numBlocks content.length + 1) (decoderNew m)
        [encode m content] [] = .bytes content ∧
    (encode m content).take 8 = u64_to_be_bytes content.length ∧
    u64_to_be_bytes 262144 =
      [0x00, 0x00, 0x00, 0x00, 0x00, 0x04, 0x00, 0x00] := by
  have hpos2 : 0 < content.length := List.length_pos.2 hpos
  have hn := numBlocks_pos content.length hpos2
  refine ⟨?_, ?_, by decide⟩
  · have hs1 : (ivChain m content (numBlocks content.length) 1).isSome =
        true := hcons.2.1 1 (by omega)
    obtain ⟨s1, hs1eq⟩ := Option.isSome_iff_exists.1 hs1
    obtain ⟨k, hk⟩ : ∃ k, numBlocks content.length = k + 1 :=
      ⟨numBlocks content.length - 1, by omega⟩
    rw [hk, decodeToEnd,
      decoderRead_start m content hpos2 hlen64 hcons s1 hs1eq]
    show (if (chunkAt content 0).isEmpty then DecodeOutcome.bytes []
      else decodeToEnd m (k + 1) (midState m content 1 s1) []
        ([] ++ chunkAt content 0)) = _
    rw [chunk_isEmpty_false content hpos2 0 hn]
    simp only [Bool.false_eq_true, if_false, List.nil_append]
    rw [decodeToEnd_mid m content hpos2 hcons k 1 (by omega) (by omega)
      s1 (chunkAt content 0) hs1eq]
    have h0 : chunkAt content 0 ++ content.drop (1 * BLOCK_SIZE) =
        content := by
      have := chunk_cons_drop content 0
      simpa using this
    rw [h0]
  · rw [encode_eq m content hpos2]
    exact List.take_left' rfl

theorem c1_stream_roundtrip_witness :
    ([0x80] : List Nat) ≠ [] ∧ Consistent trivialModel [0x80] ∧
    decodeToEnd trivialModel (numBlocks ([0x80] : List Nat).length + 1)
        (decoderNew trivialModel) [encode trivialModel [0x80]] [] =
      .bytes [0x80] :=
  ⟨by decide, by decide,
    (c1_stream_roundtrip trivialModel [0x80] (by decide) (by decide)
      (by decide)).1⟩

end Stream
namespace Stream

/-- C10 (code bug): `VerifiedDecoder::read` can panic on small caller
buffers.  In the block arm the source computes
`take = bytes.len() - buf.len()` when the verified block bytes exceed the
caller's buffer and then indexes `buf[..take]`, which panics whenever
`take > buf.len()` - that is, whenever the block is more than twice the
caller's buffer - instead of returning a count bounded by the buffer length.
Stated for the decoder state at any block boundary (`midState`, the state
`decoderRead` reaches after the header and the first `i` blocks, per
`decoderRead_start` and `decoderRead_mid`). -/
theorem c10_small_buffer_panics (m : StreamModel) (content : List Nat)
    (hpos : 0 < content.length) (hcons : Consistent m content) (i : Nat)
    (hi : i < numBlocks content.length) (s s' : m.IVSt)
    (hs : ivChain m content (numBlocks content.length) i = some s)
    (hs' : ivChain m content (numBlocks content.length) (i + 1) = some s')
    (bufLen : Nat) (hsmall : 2 * bufLen < (chunkAt content i).length) :
    decoderRead m bufLen (midState m content i s) [] = .panicked := by
  have hdone := isDone_false_of_chain m content hcons i hi s hs
  have hplen : (m.proof i).length =
      m.estimate i (numBlocks content.length) := hcons.1 i hi
  have hstep : ivStep m content (numBlocks content.length) i s = some s' := by
    rw [ivChain, hs, Option.some_bind] at hs'
    exact hs'
  rw [ivStep] at hstep
  obtain ⟨s2, hfeed, hverify⟩ := Option.bind_eq_some.1 hstep
  have hbody : streamBody m content (numBlocks content.length) i =
      (m.proof i ++ chunkAt content i) ++
        streamBody m content (numBlocks content.length) (i + 1) := by
    conv_lhs => rw [streamBody]
    rw [if_pos hi]
  have hge : m.estimate i (numBlocks content.length) ≤
      (streamBody m content (numBlocks content.length) i).length := by
    rw [hbody]
    simp only [List.length_append]
    omega
  have htake : List.take (m.estimate i (numBlocks content.length))
      (streamBody m content (numBlocks content.length) i) = m.proof i := by
    rw [hbody, List.append_assoc]
    exact List.take_left' hplen
  have hdropbody : List.drop (m.estimate i (numBlocks content.length))
      (streamBody m content (numBlocks content.length) i) =
      chunkAt content i ++
        streamBody m content (numBlocks content.length) (i + 1) := by
    rw [hbody, List.append_assoc]
    exact List.drop_left' hplen
  have hfp : feedProofStep m (midState m content i s)
      (m.estimate i (numBlocks content.length)) = some s2 := by
    rw [feedProofStep]
    simp only [midState]
    rw [htake]
    exact hfeed
  have hstate1 : (midState m content i s).state =
      .WaitingForProof (m.estimate i (numBlocks content.length)) := by
    rw [midState, if_pos hi]
  rw [decoderRead]
  rw [if_neg (by simp [midState, hdone])]
  rw [if_neg (by simp [midState])]
  rw [readLoop_proof_step m bufLen (midState m content i s)
    (m.estimate i (numBlocks content.length)) s2 [] hstate1 hge hfp]
  rw [proofNextState_eq m content hpos i hi s s2 hplen]
  rw [readLoop_block_step m bufLen _ (chunkAt content i).length s' []
    rfl (by simp) (by rw [List.take_left]; exact hverify)]
  rw [blockOutcome]
  simp only
  rw [List.take_left]
  rw [if_pos (by omega)]
  rw [if_pos (by omega)]

theorem c10_small_buffer_panics_witness :
    2 * 1 < (chunkAt [0x80, 0x80, 0x80] 0).length ∧
    decoderRead trivialModel 1
        (midState trivialModel [0x80, 0x80, 0x80] 0 ()) [] = .panicked :=
  ⟨by decide,
    c10_small_buffer_panics trivialModel [0x80, 0x80, 0x80] (by decide)
      (by decide) 0 (by decide) () () rfl rfl 1 (by decide)⟩

end Stream

end Lightning
